import Mathlib

/-!
# Verification of the airstack structural validator and config loader

This file is a shallow embedding, in Lean 4, of the TypeScript sources of the
`airstack` repository:

* `src/types.ts` — the Entity Model (`AirstackConfig`, `ServerConfig`,
  `ServiceConfig`, `EdgeConfig`, ...), embedded as Lean structures.
* the structural validator (`validateConfig` together with its inner
  `checkCircularDeps` depth-first search), embedded as a Lean function.
  JavaScript exceptions are modelled by `Option`: a result of `none` means the
  TypeScript function threw (in particular the `TypeError` raised by reading
  `.depends_on` of `undefined` when the cycle search reaches a dependency name
  that is not a key of `config.services`).  Mutable `Set`s are modelled as
  lists, and the unbounded recursion of `checkCircularDeps` is modelled with a
  fuel parameter large enough to never be exhausted on the runs the theorems
  talk about.
* `src/config.ts` — the zod schema `AirstackConfigSchema` and the
  `AirstackConfig` class (`load` and its `validate()` method).  The zod
  combinators (`z.object`, `z.record`, `z.array`, `z.string().min(1)`,
  `z.number().int().positive()`, ...) are modelled by issue-collecting
  parsers that mirror zod's behaviour of aggregating one issue per violation,
  each carrying the field path.

Validator findings are embedded as inductive types `VError` / `VWarning`
(one constructor per `errors.push(...)` / `warnings.push(...)` site of the
source); `renderError` / `renderWarning` give the exact template strings the
source pushes.
-/

namespace Airstack

/-! ## Entity model (src/types.ts) -/

/-- Model of `deploy_mode: 'local' | 'remote'` of `project` in src/types.ts. -/
inductive DeployMode where
  | local
  | remote
deriving DecidableEq, Repr

/-- Model of `interface ProjectConfig` part of `AirstackConfig.project` in src/types.ts. -/
structure ProjectConfig where
  name : String
  description : Option String := none
  deploy_mode : Option DeployMode := none
deriving DecidableEq, Repr

/-- Model of `interface ServerConfig` of src/types.ts. -/
structure ServerConfig where
  name : String
  provider : String
  region : String
  server_type : String
  ssh_key : String
  floating_ip : Option Bool := none
deriving DecidableEq, Repr

/-- Model of `interface HealthcheckConfig` of src/types.ts. -/
structure HealthcheckConfig where
  command : List String
  interval_secs : Option Int := none
  retries : Option Int := none
  timeout_secs : Option Int := none
deriving DecidableEq, Repr

/-- Model of `interface ServiceConfig` of src/types.ts.  `env` (a
`Record<string, string>`) and the `services` record itself are modelled as
association lists in declaration order, matching how `Object.entries` /
`Object.keys` iterate a JS object with string keys. -/
structure ServiceConfig where
  image : String
  ports : List Int
  env : Option (List (String × String)) := none
  volumes : Option (List String) := none
  depends_on : Option (List String) := none
  target_server : Option String := none
  healthcheck : Option HealthcheckConfig := none
  profile : Option String := none
deriving DecidableEq, Repr

/-- Model of `interface EdgeSiteConfig` of src/types.ts. -/
structure EdgeSiteConfig where
  host : String
  upstream_service : String
  upstream_port : Int
  tls_email : Option String := none
  redirect_http : Option Bool := none
deriving DecidableEq, Repr

/-- Model of `interface EdgeConfig` of src/types.ts. -/
structure EdgeConfig where
  provider : String
  sites : List EdgeSiteConfig
deriving DecidableEq, Repr

/-- Model of `interface InfraConfig` — the `infra` section (`{ servers: ServerConfig[] }`). -/
structure InfraConfig where
  servers : List ServerConfig
deriving DecidableEq, Repr

/-- Model of `interface AirstackConfig` of src/types.ts.  Optional sections are
`Option`; an absent `services` object is `none` (in JS, `undefined` is falsy
while any object — even `{}` — is truthy). -/
structure AirstackConfig where
  project : ProjectConfig
  infra : Option InfraConfig := none
  services : Option (List (String × ServiceConfig)) := none
  edge : Option EdgeConfig := none
deriving DecidableEq, Repr

/-! Kernel-computable models of the JS string operations the validator uses
(`String.trim` etc. of the Lean core are not reducible by the kernel, so the
equivalents are phrased over the character list `String.data`). -/

/-- Whether `str.trim()` yields the empty string — i.e. `str` is empty or all
whitespace.  Models the falsiness test `!str.trim()`. -/
def trimEmpty (s : String) : Bool :=
  s.data.all Char.isWhitespace

/-- Model of `str.includes(c)` for a single character `c`. -/
def strContains (s : String) (c : Char) : Bool :=
  s.data.contains c

/-- Model of `str.startsWith(c)` for a single character `c`. -/
def strHeadIs (s : String) (c : Char) : Bool :=
  s.data.head? == some c

/-- The service entries of a config (`config.services`, `{}`-defaulted views
use `getD`); entries in declaration order. -/
def entriesOf (config : AirstackConfig) : List (String × ServiceConfig) :=
  config.services.getD []

/-- The server list of a config (`config.infra?.servers || []`). -/
def serversOf (config : AirstackConfig) : List ServerConfig :=
  (config.infra.map InfraConfig.servers).getD []

/-- JS property lookup `services[name]` on the services record: the record is
modelled as an association list, and lookup returns the (unique, since JS
object keys are unique) binding for `name`. -/
def lookupService (services : List (String × ServiceConfig)) (name : String) :
    Option ServiceConfig :=
  (services.find? (fun e => e.1 == name)).map (fun e => e.2)

/-! ## Validator findings

One constructor per `errors.push` / `warnings.push` site of the validator
(src validator file, `validateConfig`).  `renderError` / `renderWarning`
below give the exact strings the source pushes. -/

/-- The errors `validateConfig` can push, one constructor per push site. -/
inductive VError where
  | projectNameEmpty
  | duplicateServer (name : String)
  | serverNameEmpty
  | duplicateService (name : String)
  | serviceImageEmpty (name : String)
  | invalidPort (name : String) (port : Int)
  | missingDep (name : String) (dep : String)
  | circularDep (name : String)
deriving DecidableEq, Repr

/-- The warnings `validateConfig` can push, one constructor per push site. -/
inductive VWarning where
  | projectNameSpaces
  | unknownProvider (provider : String) (name : String)
  | sshKeyFormat (name : String)
  | noPorts (name : String)
  | privilegedPort (name : String) (port : Int)
  | volumeFormat (volume : String) (name : String)
deriving DecidableEq, Repr

/-- The exact message string the source pushes for each error. -/
def renderError : VError → String
  | .projectNameEmpty => "Project name cannot be empty"
  | .duplicateServer name => "Duplicate server name: " ++ name
  | .serverNameEmpty => "Server name cannot be empty"
  | .duplicateService name => "Duplicate service name: " ++ name
  | .serviceImageEmpty name =>
      "Service \x27" ++ name ++ "\x27 must have an image"
  | .invalidPort name port =>
      "Service \x27" ++ name ++ "\x27 has invalid port: " ++ toString port
  | .missingDep name dep =>
      "Service \x27" ++ name ++ "\x27 depends on \x27" ++ dep ++
        "\x27 which is not defined"
  | .circularDep name =>
      "Circular dependency detected involving service \x27" ++ name ++ "\x27"

/-- The exact message string the source pushes for each warning. -/
def renderWarning : VWarning → String
  | .projectNameSpaces =>
      "Project name contains spaces, consider using hyphens or underscores"
  | .unknownProvider provider name =>
      "Unknown provider \x27" ++ provider ++ "\x27 for server \x27" ++ name ++ "\x27"
  | .sshKeyFormat name =>
      "SSH key for server \x27" ++ name ++ "\x27 should be a file path or key ID"
  | .noPorts name => "Service \x27" ++ name ++ "\x27 has no exposed ports"
  | .privilegedPort name port =>
      "Service \x27" ++ name ++ "\x27 uses privileged port " ++ toString port
  | .volumeFormat volume name =>
      "Volume \x27" ++ volume ++ "\x27 in service \x27" ++ name ++
        "\x27 should use host:container format"

/-- Model of `interface ValidationResult` of the validator source, with the string
lists replaced by their structured counterparts (`renderError` /
`renderWarning` recover the strings). -/
structure ValidationResult where
  valid : Bool
  errors : List VError
  warnings : List VWarning
deriving DecidableEq, Repr

/-! ## validateConfig — the phase checks -/

/-- Project checks of `validateConfig`: empty (after `trim`) name is an
error, a name containing a space is a warning. -/
def projectChecks (project : ProjectConfig) : List VError × List VWarning :=
  ((if trimEmpty project.name then [VError.projectNameEmpty] else []),
   (if strContains project.name ' ' then [VWarning.projectNameSpaces] else []))

/-- Server loop of `validateConfig`: per server, in order — duplicate-name
error (against the names already seen), empty-name error, unknown-provider
warning (`!['hetzner'].includes(provider)`), ssh-key heuristic warning. -/
def serverChecksGo (seen : List String) :
    List ServerConfig → List VError × List VWarning
  | [] => ([], [])
  | server :: rest =>
    let dupE := if server.name ∈ seen then [VError.duplicateServer server.name] else []
    let nameE := if trimEmpty server.name then [VError.serverNameEmpty] else []
    let provW :=
      if server.provider ∈ ["hetzner"] then []
      else [VWarning.unknownProvider server.provider server.name]
    let sshW :=
      if server.ssh_key ≠ "" ∧ ¬ strContains server.ssh_key '/' ∧
          ¬ strHeadIs server.ssh_key '~' then
        [VWarning.sshKeyFormat server.name]
      else []
    let restRes := serverChecksGo (server.name :: seen) rest
    (dupE ++ nameE ++ restRes.1, provW ++ sshW ++ restRes.2)

/-- Server checks of `validateConfig`, starting from an empty seen-set. -/
def serverChecks (servers : List ServerConfig) : List VError × List VWarning :=
  serverChecksGo [] servers

/-- Service loop of `validateConfig`.  Per entry, in source order:
duplicate-name error, empty-image error, no-ports warning, per-port
out-of-range error (`port < 1 || port > 65535`) and privileged-port warning
(`port < 1024`), per-dependency undefined-reference error (lookup in the full
`services` record), per-volume format warning. -/
def serviceChecksGo (services : List (String × ServiceConfig)) (seen : List String) :
    List (String × ServiceConfig) → List VError × List VWarning
  | [] => ([], [])
  | (serviceName, service) :: rest =>
    let dupE := if serviceName ∈ seen then [VError.duplicateService serviceName] else []
    let imgE := if trimEmpty service.image then [VError.serviceImageEmpty serviceName] else []
    let noPortsW := if service.ports = [] then [VWarning.noPorts serviceName] else []
    let portE := service.ports.filterMap (fun port =>
      if port < 1 ∨ port > 65535 then some (VError.invalidPort serviceName port) else none)
    let portW := service.ports.filterMap (fun port =>
      if port < 1024 then some (VWarning.privilegedPort serviceName port) else none)
    let depE := (service.depends_on.getD []).filterMap (fun dep =>
      if (lookupService services dep).isNone then
        some (VError.missingDep serviceName dep)
      else none)
    let volW := (service.volumes.getD []).filterMap (fun volume =>
      if ¬ strContains volume ':' then
        some (VWarning.volumeFormat volume serviceName)
      else none)
    let restRes := serviceChecksGo services (serviceName :: seen) rest
    (dupE ++ imgE ++ portE ++ depE ++ restRes.1,
     noPortsW ++ portW ++ volW ++ restRes.2)

/-- Service checks of `validateConfig`, starting from an empty seen-set. -/
def serviceChecks (services : List (String × ServiceConfig)) :
    List VError × List VWarning :=
  serviceChecksGo services [] services

/-! ## validateConfig — cycle detection

The inner `checkCircularDeps` of `validateConfig`: a depth-first search with
shared mutable `visiting` / `visited` sets (modelled as lists inside
`DfsState`) that also pushes to the shared `errors` array.  The TypeScript
recursion is unbounded; here it takes a fuel argument, and the caller
(`runCycleChecks`) passes `services.length + 1`, which exceeds the maximal
recursion depth (each nested frame adds a distinct fresh service key to
`visiting` before recursing).  A result of `none` models a thrown exception:
`checkCircularDeps(dep)` on a name that is not a key of `config.services`
evaluates `service.depends_on` with `service === undefined` and throws a
`TypeError`. -/

/-- The mutable state shared by all `checkCircularDeps` frames: the
`visiting` set, the `visited` set, and the `errors` array. -/
structure DfsState where
  visiting : List String
  visited : List String
  errors : List VError
deriving DecidableEq, Repr

/-- The `for (const dep of service.depends_on)` loop body of
`checkCircularDeps`, for the frame of service `s`: run `recur` (the recursive
call) on each dependency in turn; a `true` result pushes
`Circular dependency detected involving service s` and stops the loop with
`true`; a `false` result continues with the updated shared state. -/
def checkDeps (recur : String → DfsState → Option (Bool × DfsState)) (s : String) :
    List String → DfsState → Option (Bool × DfsState)
  | [], st => some (false, st)
  | dep :: rest, st =>
    match recur dep st with
    | none => none
    | some (true, st') =>
        some (true, { st' with errors := st'.errors ++ [VError.circularDep s] })
    | some (false, st') => checkDeps recur s rest st'

/-- Model of `checkCircularDeps(serviceName)` of the validator source.  In order: a
name already in `visiting` returns `true` (back-edge); a name in `visited`
returns `false`; otherwise the name is added to `visiting`,
`config.services![serviceName]` is read — `none` (a thrown `TypeError`) when
the name is not a key — its `depends_on` list (`[]` when absent) is walked by
`checkDeps`, and on a fully `false` walk the name is moved from `visiting` to
`visited`.  A frame that returns `true` performs no such move, so every name
on a detected cycle path stays in `visiting` for good. -/
def checkCircularDeps (services : List (String × ServiceConfig)) :
    Nat → String → DfsState → Option (Bool × DfsState)
  | 0, _, _ => none
  | fuel + 1, s, st =>
    if s ∈ st.visiting then some (true, st)
    else if s ∈ st.visited then some (false, st)
    else
      let st1 : DfsState := { st with visiting := s :: st.visiting }
      match lookupService services s with
      | none => none
      | some service =>
        match checkDeps (checkCircularDeps services fuel) s
            (service.depends_on.getD []) st1 with
        | none => none
        | some (true, st2) => some (true, st2)
        | some (false, st2) =>
            some (false,
              { visiting := st2.visiting.erase s,
                visited := s :: st2.visited,
                errors := st2.errors })

/-- The `for (const serviceName of Object.keys(config.services))` loop that
launches `checkCircularDeps` once per service key, threading the shared
state; the boolean result of each top-level call is discarded. -/
def cycleLoop (services : List (String × ServiceConfig)) :
    List String → DfsState → Option DfsState
  | [], st => some st
  | name :: rest, st =>
    match checkCircularDeps services (services.length + 1) name st with
    | none => none
    | some (_, st') => cycleLoop services rest st'

/-- The whole cycle-detection pass: fresh `visiting` / `visited` sets, the
errors accumulated so far, one top-level search per service key. -/
def runCycleChecks (services : List (String × ServiceConfig))
    (errors0 : List VError) : Option (List VError) :=
  (cycleLoop services (services.map Prod.fst)
    { visiting := [], visited := [], errors := errors0 }).map DfsState.errors

/-- Model of `validateConfig` of the validator source.  `none` models a thrown
exception (the `TypeError` described at `checkCircularDeps`); on normal
return, `valid` is `errors.length === 0`.  The `edge` section of the config
is never read. -/
def validateConfig (config : AirstackConfig) : Option ValidationResult :=
  let projRes := projectChecks config.project
  let srvRes := serverChecks (serversOf config)
  match config.services with
  | none =>
      some { valid := (projRes.1 ++ srvRes.1).length == 0,
             errors := projRes.1 ++ srvRes.1,
             warnings := projRes.2 ++ srvRes.2 }
  | some services =>
      let svcRes := serviceChecks services
      match runCycleChecks services (projRes.1 ++ srvRes.1 ++ svcRes.1) with
      | none => none
      | some finalErrors =>
          some { valid := finalErrors.length == 0,
                 errors := finalErrors,
                 warnings := projRes.2 ++ srvRes.2 ++ svcRes.2 }

/-! ## The dependency graph of a services record -/

/-- The `depends_on` list the DFS walks for a name: the `depends_on` of the
service the record lookup returns (`[]` for an absent field or an undefined
name — though the DFS throws on the latter before reading it). -/
def svcDeps (services : List (String × ServiceConfig)) (s : String) : List String :=
  match lookupService services s with
  | some service => service.depends_on.getD []
  | none => []

/-- The directed dependency graph: `Edge services a b` iff service `a` is
defined and lists `b` in its `depends_on`. -/
def Edge (services : List (String × ServiceConfig)) (a b : String) : Prop :=
  b ∈ svcDeps services a

instance (services : List (String × ServiceConfig)) (a b : String) :
    Decidable (Edge services a b) := by
  unfold Edge; infer_instance

/-- Holds when `a` can reach a dependency cycle: some `c` with a nonempty `depends_on`
path from `c` back to itself is reachable from `a`. -/
def ReachesCycle (services : List (String × ServiceConfig)) (a : String) : Prop :=
  ∃ c, Relation.ReflTransGen (Edge services) a c ∧
    Relation.TransGen (Edge services) c c

/-- The dependency graph has a cycle of length ≥ 1 (a self-loop included). -/
def HasCycle (services : List (String × ServiceConfig)) : Prop :=
  ∃ c, Relation.TransGen (Edge services) c c

/-- Every name listed in any entry's `depends_on` is a key of the services
record. -/
def AllDepsDefined (services : List (String × ServiceConfig)) : Prop :=
  ∀ e ∈ services, ∀ d ∈ e.2.depends_on.getD [], (lookupService services d).isSome

instance (services : List (String × ServiceConfig)) :
    Decidable (AllDepsDefined services) := by
  unfold AllDepsDefined; infer_instance

/-- The `visiting` and `visited` sets are disjoint (true of every state the
DFS can reach from the initial empty sets). -/
def DisjSets (st : DfsState) : Prop :=
  ∀ a, a ∈ st.visiting → a ∈ st.visited → False

/-- The `visited` set is closed under dependency edges: a fully-explored
service only depends on fully-explored services (true of every reachable
state). -/
def DoneClosed (services : List (String × ServiceConfig)) (st : DfsState) : Prop :=
  ∀ a ∈ st.visited, ∀ d ∈ svcDeps services a, d ∈ st.visited

/-- The shape facts for one DFS call, as a predicate on (result flag, entry
state, exit state); `dOut` is the name searched (used for the `false` case:
a completed name ends up in `visited`). -/
def DfsShape (dOut : String) (b : Bool) (st st' : DfsState) : Prop :=
  (∀ a ∈ st.visiting, a ∈ st'.visiting) ∧
  (∀ a ∈ st.visited, a ∈ st'.visited) ∧
  (∀ a, a ∈ st.visiting ∨ a ∈ st.visited → a ∈ st'.visiting ∨ a ∈ st'.visited) ∧
  (∃ delta, st'.errors = st.errors ++ delta ∧
    ∀ e ∈ delta, ∃ n, e = VError.circularDep n) ∧
  (b = false → st'.visiting = st.visiting ∧ st'.errors = st.errors ∧
    dOut ∈ st'.visited)

/-- The `visited` set only holds names from which no cycle is reachable. -/
def CycleFree (services : List (String × ServiceConfig)) (st : DfsState) : Prop :=
  ∀ a ∈ st.visited, ¬ ReachesCycle services a

/-- The set of service keys, used to bound the DFS recursion depth. -/
def keysFinset (services : List (String × ServiceConfig)) : Finset String :=
  (services.map Prod.fst).toFinset

/-- The number of service keys not yet touched by the DFS (neither in
`visiting` nor in `visited`): an upper bound on the remaining recursion
depth. -/
def freshCount (services : List (String × ServiceConfig)) (st : DfsState) : Nat :=
  ((keysFinset services).filter
    (fun k => ¬ (k ∈ st.visiting ∨ k ∈ st.visited))).card

/-! ## The schema loader (src/config.ts)

`AirstackConfig.load` reads a file, parses TOML and runs
`AirstackConfigSchema.parse`.  The file read and the TOML parse are I/O and
an external library; the model takes the already-parsed structured document
as input.  The zod combinators are modelled by issue-collecting parsers
mirroring zod's semantics: an object schema checks every declared field and
concatenates their issues (it does not stop at the first violation), each
issue carrying the path of field names / array indices from the root. -/

/-- A parsed structured document (the result of parsing TOML): strings,
numbers (integers at the abstraction level of the claims), booleans, arrays
and tables. -/
inductive JValue where
  | str (s : String)
  | num (n : Int)
  | bool (b : Bool)
  | arr (items : List JValue)
  | table (fields : List (String × JValue))
deriving Repr

/-- The type name zod reports for a received value. -/
def jTypeName : JValue → String
  | .str _ => "string"
  | .num _ => "number"
  | .bool _ => "boolean"
  | .arr _ => "array"
  | .table _ => "object"

/-- One zod issue: the path from the document root (field names and array
indices) and a human-readable message. -/
structure ZIssue where
  path : List String
  message : String
deriving DecidableEq, Repr

/-- Property lookup in a parsed table. -/
def getField (fields : List (String × JValue)) (key : String) : Option JValue :=
  (fields.find? (fun e => e.1 == key)).map (fun e => e.2)

/-- Model of `z.string()`. -/
def zString (path : List String) : JValue → List ZIssue × Option String
  | .str s => ([], some s)
  | v => ([⟨path, "Expected string, received " ++ jTypeName v⟩], none)

/-- Model of `z.string().min(1)`. -/
def zStringMin1 (path : List String) : JValue → List ZIssue × Option String
  | .str s =>
      if s.length ≥ 1 then ([], some s)
      else ([⟨path, "String must contain at least 1 character(s)"⟩], none)
  | v => ([⟨path, "Expected string, received " ++ jTypeName v⟩], none)

/-- Model of `z.number().int().positive()` (documents are modelled with integer
numbers, so the `.int()` refinement cannot fail here). -/
def zPosInt (path : List String) : JValue → List ZIssue × Option Int
  | .num n =>
      if n > 0 then ([], some n)
      else ([⟨path, "Number must be greater than 0"⟩], none)
  | v => ([⟨path, "Expected number, received " ++ jTypeName v⟩], none)

/-- Model of `z.boolean()`. -/
def zBool (path : List String) : JValue → List ZIssue × Option Bool
  | .bool b => ([], some b)
  | v => ([⟨path, "Expected boolean, received " ++ jTypeName v⟩], none)

/-- Model of `z.enum(['local', 'remote'])` for `deploy_mode`. -/
def zDeployMode (path : List String) : JValue → List ZIssue × Option DeployMode
  | .str "local" => ([], some DeployMode.local)
  | .str "remote" => ([], some DeployMode.remote)
  | _ =>
      ([⟨path, "Invalid enum value. Expected \x27local\x27 | \x27remote\x27"⟩], none)

/-- A required object field: a missing key is one `Required` issue; a
present key is checked at `path ++ [key]`. -/
def zReq {α : Type} (p : List String → JValue → List ZIssue × Option α)
    (path : List String) (key : String) (fields : List (String × JValue)) :
    List ZIssue × Option α :=
  match getField fields key with
  | some v => p (path ++ [key]) v
  | none => ([⟨path ++ [key], "Required"⟩], none)

/-- An optional object field (`.optional()`): a missing key is fine. -/
def zOpt {α : Type} (p : List String → JValue → List ZIssue × Option α)
    (path : List String) (key : String) (fields : List (String × JValue)) :
    List ZIssue × Option (Option α) :=
  match getField fields key with
  | some v =>
      let r := p (path ++ [key]) v
      (r.1, r.2.map some)
  | none => ([], some none)

/-- Collects the issue lists of element parses and the decoded list when
every element decoded. -/
def zCollect {α : Type} (rs : List (List ZIssue × Option α)) :
    List ZIssue × Option (List α) :=
  match rs with
  | [] => ([], some [])
  | r :: rest =>
      let acc := zCollect rest
      (r.1 ++ acc.1,
       match r.2, acc.2 with
       | some a, some l => some (a :: l)
       | _, _ => none)

/-- Model of `z.array(p)`: every element is checked, at its index in the path. -/
def zArray {α : Type} (p : List String → JValue → List ZIssue × Option α)
    (path : List String) : JValue → List ZIssue × Option (List α)
  | .arr items =>
      zCollect (items.enum.map (fun e => p (path ++ [toString e.1]) e.2))
  | v => ([⟨path, "Expected array, received " ++ jTypeName v⟩], none)

/-- Model of `z.record(p)`: every value of the table is checked, at its key. -/
def zRecord {α : Type} (p : List String → JValue → List ZIssue × Option α)
    (path : List String) : JValue → List ZIssue × Option (List (String × α))
  | .table fields =>
      let rs := fields.map (fun e =>
        let r := p (path ++ [e.1]) e.2
        (r.1, r.2.map (fun a => (e.1, a))))
      zCollect rs
  | v => ([⟨path, "Expected object, received " ++ jTypeName v⟩], none)

/-- Model of `ServerConfigSchema` of src/config.ts. -/
def parseServer (path : List String) : JValue → List ZIssue × Option ServerConfig
  | .table fields =>
      let n := zReq zStringMin1 path "name" fields
      let p := zReq zStringMin1 path "provider" fields
      let r := zReq zStringMin1 path "region" fields
      let t := zReq zStringMin1 path "server_type" fields
      let k := zReq zStringMin1 path "ssh_key" fields
      let f := zOpt zBool path "floating_ip" fields
      (n.1 ++ p.1 ++ r.1 ++ t.1 ++ k.1 ++ f.1,
       match n.2, p.2, r.2, t.2, k.2, f.2 with
       | some a, some b, some c, some d, some e, some ff =>
           some { name := a, provider := b, region := c, server_type := d,
                  ssh_key := e, floating_ip := ff }
       | _, _, _, _, _, _ => none)
  | v => ([⟨path, "Expected object, received " ++ jTypeName v⟩], none)

/-- The nested `healthcheck` schema of `ServiceConfigSchema`
(`command: z.array(z.string()).min(1)` and three optional positive ints). -/
def parseHealthcheck (path : List String) :
    JValue → List ZIssue × Option HealthcheckConfig
  | .table fields =>
      let cmd := zReq (fun pth v =>
        let r := zArray zString pth v
        match r.2 with
        | some l =>
            if l.length ≥ 1 then r
            else (r.1 ++ [⟨pth, "Array must contain at least 1 element(s)"⟩], none)
        | none => r) path "command" fields
      let iv := zOpt zPosInt path "interval_secs" fields
      let rt := zOpt zPosInt path "retries" fields
      let tm := zOpt zPosInt path "timeout_secs" fields
      (cmd.1 ++ iv.1 ++ rt.1 ++ tm.1,
       match cmd.2, iv.2, rt.2, tm.2 with
       | some a, some b, some c, some d =>
           some { command := a, interval_secs := b, retries := c, timeout_secs := d }
       | _, _, _, _ => none)
  | v => ([⟨path, "Expected object, received " ++ jTypeName v⟩], none)

/-- Model of `ServiceConfigSchema` of src/config.ts. -/
def parseService (path : List String) : JValue → List ZIssue × Option ServiceConfig
  | .table fields =>
      let img := zReq zStringMin1 path "image" fields
      let prt := zReq (zArray zPosInt) path "ports" fields
      let env := zOpt (zRecord zString) path "env" fields
      let vol := zOpt (zArray zString) path "volumes" fields
      let dep := zOpt (zArray zString) path "depends_on" fields
      let tgt := zOpt zStringMin1 path "target_server" fields
      let hc := zOpt parseHealthcheck path "healthcheck" fields
      let prof := zOpt zString path "profile" fields
      (img.1 ++ prt.1 ++ env.1 ++ vol.1 ++ dep.1 ++ tgt.1 ++ hc.1 ++ prof.1,
       match img.2, prt.2, env.2, vol.2, dep.2, tgt.2, hc.2, prof.2 with
       | some a, some b, some c, some d, some e, some f, some g, some h =>
           some { image := a, ports := b, env := c, volumes := d, depends_on := e,
                  target_server := f, healthcheck := g, profile := h }
       | _, _, _, _, _, _, _, _ => none)
  | v => ([⟨path, "Expected object, received " ++ jTypeName v⟩], none)

/-- The `project` object schema. -/
def parseProject (path : List String) : JValue → List ZIssue × Option ProjectConfig
  | .table fields =>
      let n := zReq zStringMin1 path "name" fields
      let d := zOpt zString path "description" fields
      let m := zOpt zDeployMode path "deploy_mode" fields
      (n.1 ++ d.1 ++ m.1,
       match n.2, d.2, m.2 with
       | some a, some b, some c =>
           some { name := a, description := b, deploy_mode := c }
       | _, _, _ => none)
  | v => ([⟨path, "Expected object, received " ++ jTypeName v⟩], none)

/-- The optional `infra` object schema (`servers: z.array(ServerConfigSchema)`). -/
def parseInfra (path : List String) : JValue → List ZIssue × Option InfraConfig
  | .table fields =>
      let s := zReq (zArray parseServer) path "servers" fields
      (s.1, s.2.map (fun l => { servers := l }))
  | v => ([⟨path, "Expected object, received " ++ jTypeName v⟩], none)

/-- One edge site schema. -/
def parseSite (path : List String) : JValue → List ZIssue × Option EdgeSiteConfig
  | .table fields =>
      let h := zReq zStringMin1 path "host" fields
      let u := zReq zStringMin1 path "upstream_service" fields
      let p := zReq zPosInt path "upstream_port" fields
      let e := zOpt zString path "tls_email" fields
      let r := zOpt zBool path "redirect_http" fields
      (h.1 ++ u.1 ++ p.1 ++ e.1 ++ r.1,
       match h.2, u.2, p.2, e.2, r.2 with
       | some a, some b, some c, some d, some f =>
           some { host := a, upstream_service := b, upstream_port := c,
                  tls_email := d, redirect_http := f }
       | _, _, _, _, _ => none)
  | v => ([⟨path, "Expected object, received " ++ jTypeName v⟩], none)

/-- The optional `edge` object schema. -/
def parseEdge (path : List String) : JValue → List ZIssue × Option EdgeConfig
  | .table fields =>
      let p := zReq zStringMin1 path "provider" fields
      let s := zReq (zArray parseSite) path "sites" fields
      (p.1 ++ s.1,
       match p.2, s.2 with
       | some a, some b => some { provider := a, sites := b }
       | _, _ => none)
  | v => ([⟨path, "Expected object, received " ++ jTypeName v⟩], none)

/-- Model of `AirstackConfigSchema.parse` of src/config.ts: the four top-level
sections checked in declaration order, all issues concatenated (unknown keys
are stripped, not rejected). -/
def parseAirstackConfig (doc : JValue) : List ZIssue × Option AirstackConfig :=
  match doc with
  | .table fields =>
      let p := zReq parseProject [] "project" fields
      let i := zOpt parseInfra [] "infra" fields
      let s := zOpt (zRecord parseService) [] "services" fields
      let e := zOpt parseEdge [] "edge" fields
      (p.1 ++ i.1 ++ s.1 ++ e.1,
       match p.2, i.2, s.2, e.2 with
       | some a, some b, some c, some d =>
           some { project := a, infra := b, services := c, edge := d }
       | _, _, _, _ => none)
  | v => ([⟨[], "Expected object, received " ++ jTypeName v⟩], none)

/-- The issues `AirstackConfigSchema.parse` collects for a document. -/
def schemaIssues (doc : JValue) : List ZIssue :=
  (parseAirstackConfig doc).1

/-- Model of `err.path.join('.') + ': ' + err.message`, with the two-space indent of
`AirstackConfig.load`. -/
def formatZodIssue (i : ZIssue) : String :=
  "  " ++ String.intercalate "." i.path ++ ": " ++ i.message

/-- Model of `AirstackConfig.load` of src/config.ts, on an already-parsed document:
on any schema violation it throws (models as `Except.error`) a single
`Error` whose message lists, for every issue zod collected, its dotted field
path and message, joined by newlines. -/
def airstackConfigLoad (doc : JValue) : Except String AirstackConfig :=
  match parseAirstackConfig doc with
  | ([], some c) => Except.ok c
  | (issues, _) =>
      Except.error ("Configuration validation failed:\n" ++
        String.intercalate "\n" (issues.map formatZodIssue))

/-! ## The AirstackConfig.validate() method (src/config.ts)

Unlike the structural validator, this method throws at the first violation
it meets: the servers loop throws on the first repeated server name; the
services loop throws on a repeated key (unreachable for keys of a real JS
record, which are unique) and then on the first `depends_on` entry that is
not a key of the services record. -/

/-- The message of the `validate()` duplicate-server throw. -/
def dupServerMsg (name : String) : String :=
  "Duplicate server name: " ++ name

/-- The message of the `validate()` duplicate-service throw. -/
def dupServiceMsg (name : String) : String :=
  "Duplicate service name: " ++ name

/-- The message of the `validate()` undefined-dependency throw. -/
def missingDepMsg (name dep : String) : String :=
  "Service \x27" ++ name ++ "\x27 depends on \x27" ++ dep ++
    "\x27 which is not defined"

/-- The servers loop of `validate()`. -/
def methodValidateServers (seen : List String) :
    List ServerConfig → Except String Unit
  | [] => Except.ok ()
  | server :: rest =>
      if server.name ∈ seen then Except.error (dupServerMsg server.name)
      else methodValidateServers (server.name :: seen) rest

/-- The `depends_on` loop of `validate()` for one service. -/
def methodValidateDeps (services : List (String × ServiceConfig)) (name : String) :
    List String → Except String Unit
  | [] => Except.ok ()
  | dep :: rest =>
      if (lookupService services dep).isNone then
        Except.error (missingDepMsg name dep)
      else methodValidateDeps services name rest

/-- The services loop of `validate()`. -/
def methodValidateServices (services : List (String × ServiceConfig))
    (seen : List String) :
    List (String × ServiceConfig) → Except String Unit
  | [] => Except.ok ()
  | (serviceName, service) :: rest =>
      if serviceName ∈ seen then Except.error (dupServiceMsg serviceName)
      else
        match methodValidateDeps services serviceName
            (service.depends_on.getD []) with
        | Except.error e => Except.error e
        | Except.ok () =>
            methodValidateServices services (serviceName :: seen) rest

/-- Model of `AirstackConfig.validate()` of src/config.ts (`this.servers` defaults to
`[]`, `this.services` to `{}`). -/
def configValidateMethod (config : AirstackConfig) : Except String Unit :=
  match methodValidateServers [] (serversOf config) with
  | Except.error e => Except.error e
  | Except.ok () =>
      methodValidateServices (entriesOf config) [] (entriesOf config)

/-- Refinement reference for C10 (scan with the names already seen). -/
def firstDupServerNameGo (seen : List String) : List ServerConfig → Option String
  | [] => none
  | server :: rest =>
      if server.name ∈ seen then some server.name
      else firstDupServerNameGo (server.name :: seen) rest

/-- Refinement reference for C10, following the claim's words: the first
server name that repeats an earlier one, scanning in declaration order. -/
def firstDupServerName (servers : List ServerConfig) : Option String :=
  firstDupServerNameGo [] servers

/-- Refinement reference for C10, following the claim's words: the first
`(service, dep)` whose `dep` is not a key of the services record, scanning
entries and their `depends_on` lists in declaration order. -/
def firstUndefinedDepRef (services : List (String × ServiceConfig)) :
    List (String × ServiceConfig) → Option (String × String)
  | [] => none
  | (serviceName, service) :: rest =>
      match (service.depends_on.getD []).find?
          (fun dep => (lookupService services dep).isNone) with
      | some dep => some (serviceName, dep)
      | none => firstUndefinedDepRef services rest

/-! ## Concrete models used by the claim theorems -/

/-- C9 witness input: a document with violations in two different sections
(`project.name` empty and `services.api.ports.0` non-positive). -/
def docTwoViolations : JValue :=
  JValue.table
    [("project", JValue.table [("name", JValue.str "")]),
     ("services", JValue.table
        [("api", JValue.table
            [("image", JValue.str "nginx"),
             ("ports", JValue.arr [JValue.num 0])])])]

/-- C10 witness input: a model with a duplicate server name *and* an
undefined dependency; `validate()` reports only the first. -/
def cfgShortCircuit : AirstackConfig :=
  { project := { name := "demo" },
    infra := some
      { servers :=
          [{ name := "edge", provider := "hetzner", region := "nbg1",
             server_type := "cx21", ssh_key := "key" },
           { name := "edge", provider := "hetzner", region := "nbg1",
             server_type := "cx21", ssh_key := "key" }] },
    services := some
      [("api", { image := "x", ports := [3000], depends_on := some ["db"] })] }

/-- C1 failing input: `services = { api: {image:"nginx", ports:[3000],
depends_on:["db"]} }` with no `db` defined. -/
def cfgUndefDep : AirstackConfig :=
  { project := { name := "demo" },
    services := some
      [("api", { image := "nginx", ports := [3000], depends_on := some ["db"] })] }

/-- C2 failing input, the spec §8 scenario: `services = { api: {image:"",
ports:[3000], depends_on:["db"]} }` with no `db` defined. -/
def cfgSpecScenario : AirstackConfig :=
  { project := { name := "demo" },
    services := some
      [("api", { image := "", ports := [3000], depends_on := some ["db"] })] }

/-- C3 counterexample input: a config whose only blemish is an edge site
with an undefined `upstream_service` and an out-of-range `upstream_port`. -/
def cfgBadEdge : AirstackConfig :=
  { project := { name := "demo" },
    services := some [("web", { image := "nginx", ports := [8080] })],
    edge := some
      { provider := "caddy",
        sites := [{ host := "example.com", upstream_service := "ghost",
                    upstream_port := 99999 }] } }

/-- C4 witness input: a two-service cycle `a → b → a`, all deps defined. -/
def cfgCyclePair : AirstackConfig :=
  { project := { name := "demo" },
    services := some
      [("a", { image := "x", ports := [8080], depends_on := some ["b"] }),
       ("b", { image := "x", ports := [8080], depends_on := some ["a"] })] }

/-- C6 witness input, the spec §8 scenario: two servers both named `edge`. -/
def cfgDupServers : AirstackConfig :=
  { project := { name := "demo" },
    infra := some
      { servers :=
          [{ name := "edge", provider := "hetzner", region := "nbg1",
             server_type := "cx21", ssh_key := "~/key" },
           { name := "edge", provider := "hetzner", region := "nbg1",
             server_type := "cx21", ssh_key := "~/key" }] } }

/-- C7 witness input: a service with a privileged port and an out-of-range
port. -/
def cfgPorts : AirstackConfig :=
  { project := { name := "demo" },
    services := some [("web", { image := "nginx", ports := [80, 99999] })] }

/-- The service entry of `cfgPorts`. -/
def svcWeb : ServiceConfig := { image := "nginx", ports := [80, 99999] }

/-- C8 witness input: a clean config. -/
def cfgCleanW : AirstackConfig :=
  { project := { name := "demo" },
    services := some [("web", { image := "nginx", ports := [8080] })] }

/-- C5 witness services: a single self-looping service `a → a`. -/
def svcSelf : List (String × ServiceConfig) :=
  [("a", { image := "x", ports := [8080], depends_on := some ["a"] })]

/-- C5 witness services: `e` depends on `x`, which is stranded in
`visiting`. -/
def svcLeak : List (String × ServiceConfig) :=
  [("e", { image := "x", ports := [8080], depends_on := some ["x"] })]

/-- The initial DFS state. -/
def dfsStEmpty : DfsState := { visiting := [], visited := [], errors := [] }

/-- A DFS state with `x` stranded in `visiting` (as an earlier `true` return
leaves it). -/
def dfsStStale : DfsState := { visiting := ["x"], visited := [], errors := [] }

/-- The state `checkCircularDeps svcSelf 2 "a" dfsStEmpty` ends in. -/
def dfsStAfterSelf : DfsState :=
  { visiting := ["a"], visited := [], errors := [VError.circularDep "a"] }

/-- The state `checkCircularDeps svcLeak 2 "e" dfsStStale` ends in. -/
def dfsStAfterLeak : DfsState :=
  { visiting := ["e", "x"], visited := [], errors := [VError.circularDep "e"] }

/-- The result `validateConfig cfgDupServers` returns. -/
def resDupServers : ValidationResult :=
  { valid := false, errors := [VError.duplicateServer "edge"], warnings := [] }

/-- The result `validateConfig cfgPorts` returns. -/
def resPorts : ValidationResult :=
  { valid := false, errors := [VError.invalidPort "web" 99999],
    warnings := [VWarning.privilegedPort "web" 80] }

/-- The result `validateConfig cfgCleanW` returns. -/
def resCleanW : ValidationResult :=
  { valid := true, errors := [], warnings := [] }

/-! ## C1 / C2: validateConfig throws on the spec scenario -/

/-- Claim C1 (code bug): the spec requires `validateConfig` never to raise,
in particular on models whose `depends_on` lists reference undefined service
names; but on `cfgUndefDep` the cycle search calls
`checkCircularDeps("db")`, reads `config.services!["db"].depends_on` with the
lookup returning `undefined`, and throws a `TypeError` (modelled by `none`),
so the errors and warnings are lost instead of being returned as data. -/
theorem validateConfig_throws_on_undefined_dep :
    validateConfig cfgUndefDep = none := by decide

/-- Claim C2 (code bug): on the spec §8 scenario
`services = { api: {image:"", ports:[3000], depends_on:["db"]} }` the claim
expects a returned `ValidationResult` with exactly the empty-image and
undefined-dependency errors; the code instead throws (result `none`), the two
errors having been pushed but never returned. -/
theorem validateConfig_throws_on_spec_scenario :
    validateConfig cfgSpecScenario = none := by decide

/-! ## C3: validateConfig performs no edge-site checks -/

/-- Claim C3 (counterexample): for `cfgBadEdge`, whose single edge site names
the undefined `upstream_service` `"ghost"` and the out-of-range
`upstream_port` `99999`, `validateConfig` returns a fully valid result with
no errors at all — contradicting the claim that it emits an error for each
edge site with an undefined upstream service and range-checks
`upstream_port`. -/
theorem validateConfig_ignores_bad_edge :
    validateConfig cfgBadEdge =
      some { valid := true, errors := [],
             warnings := [] } := by decide

/-- Claim C3 (amended): `validateConfig` performs no checks on the `edge`
section at all — its result is independent of that section, so neither an
undefined `upstream_service` nor an out-of-range `upstream_port` ever
produces an error or a warning there. -/
theorem validateConfig_independent_of_edge :
    ∀ (config : AirstackConfig) (e₁ e₂ : Option EdgeConfig),
      validateConfig { config with edge := e₁ } =
        validateConfig { config with edge := e₂ } := by
  intro config e₁ e₂
  cases config
  rfl

/-! ## Record lookup lemmas -/

theorem lookupService_eq_some_mem {services : List (String × ServiceConfig)}
    {s : String} {svc : ServiceConfig}
    (h : lookupService services s = some svc) : (s, svc) ∈ services := by
  unfold lookupService at h
  cases hf : services.find? (fun e => e.1 == s) with
  | none => rw [hf] at h; simp at h
  | some e =>
    rw [hf] at h
    rw [Option.map_some'] at h
    have he : e ∈ services := List.mem_of_find?_eq_some hf
    have h1 : e.1 = s := by have hp := List.find?_some hf; simpa using hp
    have : e = (s, svc) := by
      cases e with
      | mk a b => simp_all
    rwa [this] at he

theorem mem_keys_of_lookup {services : List (String × ServiceConfig)} {s : String}
    (h : (lookupService services s).isSome) : s ∈ services.map Prod.fst := by
  unfold lookupService at h
  cases hf : services.find? (fun e => e.1 == s) with
  | none => rw [hf] at h; simp at h
  | some e =>
    have he : e ∈ services := List.mem_of_find?_eq_some hf
    have h1 : e.1 = s := by have hp := List.find?_some hf; simpa using hp
    exact h1 ▸ List.mem_map_of_mem Prod.fst he

theorem lookup_isSome_of_mem_keys {services : List (String × ServiceConfig)}
    {s : String} (h : s ∈ services.map Prod.fst) :
    (lookupService services s).isSome := by
  rcases List.mem_map.1 h with ⟨e, he, h1⟩
  unfold lookupService
  rw [Option.isSome_map']
  rw [List.find?_isSome]
  exact ⟨e, he, by simp [h1]⟩

theorem svcDeps_eq {services : List (String × ServiceConfig)} {s : String}
    {svc : ServiceConfig} (h : lookupService services s = some svc) :
    svcDeps services s = svc.depends_on.getD [] := by
  unfold svcDeps
  rw [h]

/-! ## DFS shape lemmas

The joint structural facts about `checkDeps` / `checkCircularDeps`:
the mutable sets only grow (with `visiting` restored exactly on a `false`
return), and the errors array only receives `circularDep` pushes. -/

theorem checkDeps_shape
    (recur : String → DfsState → Option (Bool × DfsState)) (s : String)
    (Hrec : ∀ d st st' b, recur d st = some (b, st') → DfsShape d b st st') :
    ∀ deps st st' b, checkDeps recur s deps st = some (b, st') →
      (∀ a ∈ st.visiting, a ∈ st'.visiting) ∧
      (∀ a ∈ st.visited, a ∈ st'.visited) ∧
      (∀ a, a ∈ st.visiting ∨ a ∈ st.visited →
        a ∈ st'.visiting ∨ a ∈ st'.visited) ∧
      (∃ delta, st'.errors = st.errors ++ delta ∧
        ∀ e ∈ delta, ∃ n, e = VError.circularDep n) ∧
      (b = false → st'.visiting = st.visiting ∧ st'.errors = st.errors ∧
        ∀ d ∈ deps, d ∈ st'.visited) := by
  intro deps
  induction deps with
  | nil =>
    intro st st' b h
    simp only [checkDeps] at h
    obtain ⟨hb, hst⟩ : false = b ∧ st = st' := by
      constructor <;> [exact congrArg Prod.fst (Option.some.inj h);
        exact congrArg Prod.snd (Option.some.inj h)]
    subst hb; subst hst
    refine ⟨fun a ha => ha, fun a ha => ha, fun a ha => ha, ⟨[], by simp, by simp⟩, ?_⟩
    intro _
    exact ⟨rfl, rfl, by simp⟩
  | cons d rest ih =>
    intro st st' b h
    simp only [checkDeps] at h
    cases hrec : recur d st with
    | none => rw [hrec] at h; exact absurd h (by simp)
    | some r =>
      obtain ⟨b₀, st₀⟩ := r
      rw [hrec] at h
      have hsh := Hrec d st st₀ b₀ hrec
      obtain ⟨hV, hD, hU, ⟨δ₀, hδ₀, hδ₀c⟩, hF⟩ := hsh
      cases b₀ with
      | true =>
        simp only at h
        obtain ⟨hb, hst⟩ : true = b ∧
            ({ st₀ with errors := st₀.errors ++ [VError.circularDep s] } : DfsState) = st' := by
          constructor <;> [exact congrArg Prod.fst (Option.some.inj h);
            exact congrArg Prod.snd (Option.some.inj h)]
        subst hb
        subst hst
        refine ⟨hV, hD, hU, ⟨δ₀ ++ [VError.circularDep s], by simp [hδ₀], ?_⟩, by simp⟩
        intro e he
        rcases List.mem_append.1 he with h1 | h1
        · exact hδ₀c e h1
        · simp at h1; exact ⟨s, h1⟩
      | false =>
        simp only at h
        obtain ⟨hVeq, hEeq, hdD⟩ := hF rfl
        obtain ⟨ihV, ihD, ihU, ⟨δ₁, hδ₁, hδ₁c⟩, ihF⟩ := ih st₀ st' b h
        refine ⟨?_, fun a ha => ihD a (hD a ha), ?_, ?_, ?_⟩
        · intro a ha; exact ihV a (hVeq ▸ ha)
        · intro a ha; exact ihU a (hU a ha)
        · exact ⟨δ₁, by rw [hδ₁, hEeq], hδ₁c⟩
        · intro hb
          obtain ⟨iV, iE, iAll⟩ := ihF hb
          refine ⟨by rw [iV, hVeq], by rw [iE, hEeq], ?_⟩
          intro x hx
          rcases List.mem_cons.1 hx with h1 | h1
          · subst h1; exact ihD x hdD
          · exact iAll x h1

theorem checkCircularDeps_shape (services : List (String × ServiceConfig)) :
    ∀ fuel s st st' b, checkCircularDeps services fuel s st = some (b, st') →
      DfsShape s b st st' := by
  intro fuel
  induction fuel with
  | zero => intro s st st' b h; exact absurd h (by simp [checkCircularDeps])
  | succ fuel ih =>
    intro s st st' b h
    simp only [checkCircularDeps] at h
    by_cases hv : s ∈ st.visiting
    · rw [if_pos hv] at h
      obtain ⟨hb, hst⟩ : true = b ∧ st = st' := by
        constructor <;> [exact congrArg Prod.fst (Option.some.inj h);
          exact congrArg Prod.snd (Option.some.inj h)]
      subst hb; subst hst
      exact ⟨fun a ha => ha, fun a ha => ha, fun a ha => ha,
        ⟨[], by simp, by simp⟩, by simp⟩
    · rw [if_neg hv] at h
      by_cases hd : s ∈ st.visited
      · rw [if_pos hd] at h
        obtain ⟨hb, hst⟩ : false = b ∧ st = st' := by
          constructor <;> [exact congrArg Prod.fst (Option.some.inj h);
            exact congrArg Prod.snd (Option.some.inj h)]
        subst hb; subst hst
        exact ⟨fun a ha => ha, fun a ha => ha, fun a ha => ha,
          ⟨[], by simp, by simp⟩, fun _ => ⟨rfl, rfl, hd⟩⟩
      · rw [if_neg hd] at h
        cases hl : lookupService services s with
        | none => rw [hl] at h; exact absurd h (by simp)
        | some svc =>
          rw [hl] at h
          simp only at h
          cases hcd : checkDeps (checkCircularDeps services fuel) s
              (svc.depends_on.getD []) { st with visiting := s :: st.visiting } with
          | none => rw [hcd] at h; exact absurd h (by simp)
          | some r =>
            obtain ⟨b₂, st₂⟩ := r
            rw [hcd] at h
            have hsh := checkDeps_shape (checkCircularDeps services fuel) s
              (fun d st st' b hr => ih d st st' b hr)
              (svc.depends_on.getD []) _ _ _ hcd
            obtain ⟨hV, hD, hU, ⟨δ, hδ, hδc⟩, hF⟩ := hsh
            cases b₂ with
            | true =>
              simp only at h
              obtain ⟨hb, hst⟩ : true = b ∧ st₂ = st' := by
                constructor <;> [exact congrArg Prod.fst (Option.some.inj h);
                  exact congrArg Prod.snd (Option.some.inj h)]
              subst hb; subst hst
              refine ⟨?_, hD, ?_, ⟨δ, hδ, hδc⟩, by simp⟩
              · intro a ha; exact hV a (by simp [ha])
              · intro a ha
                refine hU a ?_
                rcases ha with h1 | h1
                · exact Or.inl (by simp [h1])
                · exact Or.inr h1
            | false =>
              simp only at h
              obtain ⟨hb, hst⟩ : false = b ∧
                  ({ visiting := st₂.visiting.erase s, visited := s :: st₂.visited,
                     errors := st₂.errors } : DfsState) = st' := by
                constructor <;> [exact congrArg Prod.fst (Option.some.inj h);
                  exact congrArg Prod.snd (Option.some.inj h)]
              subst hb
              obtain ⟨hVeq, hEeq, hdAll⟩ := hF rfl
              have hV2 : st₂.visiting = s :: st.visiting := hVeq
              have hVout : st'.visiting = st.visiting := by
                rw [← hst]; simp only
                rw [hV2, List.erase_cons_head]
              refine ⟨?_, ?_, ?_, ?_, ?_⟩
              · intro a ha; rw [hVout]; exact ha
              · intro a ha; rw [← hst]; exact List.mem_cons_of_mem s (hD a ha)
              · intro a ha
                rcases ha with h1 | h1
                · exact Or.inl (hVout ▸ h1)
                · exact Or.inr (by rw [← hst]; exact List.mem_cons_of_mem s (hD a h1))
              · refine ⟨[], ?_, by simp⟩
                rw [← hst]; simp only
                rw [hEeq, List.append_nil]
              · intro _
                refine ⟨hVout, ?_, ?_⟩
                · rw [← hst]; simp only; rw [hEeq]
                · rw [← hst]; exact List.mem_cons_self s st₂.visited

/-! ## DFS invariant preservation

Every state the DFS can reach from the initial empty sets keeps `visiting`
and `visited` disjoint and keeps `visited` closed under dependency edges. -/

theorem checkDeps_inv (services : List (String × ServiceConfig))
    (recur : String → DfsState → Option (Bool × DfsState)) (s : String)
    (HrecI : ∀ d st st' b, recur d st = some (b, st') →
      DisjSets st → DoneClosed services st → DisjSets st' ∧ DoneClosed services st') :
    ∀ deps st st' b, checkDeps recur s deps st = some (b, st') →
      DisjSets st → DoneClosed services st →
      DisjSets st' ∧ DoneClosed services st' := by
  intro deps
  induction deps with
  | nil =>
    intro st st' b h hdisj hdc
    simp only [checkDeps] at h
    have hst : st = st' := congrArg Prod.snd (Option.some.inj h)
    subst hst; exact ⟨hdisj, hdc⟩
  | cons d rest ih =>
    intro st st' b h hdisj hdc
    simp only [checkDeps] at h
    cases hrec : recur d st with
    | none => rw [hrec] at h; exact absurd h (by simp)
    | some r =>
      obtain ⟨b₀, st₀⟩ := r
      rw [hrec] at h
      have hinv := HrecI d st st₀ b₀ hrec hdisj hdc
      cases b₀ with
      | true =>
        simp only at h
        have hst : ({ st₀ with errors := st₀.errors ++ [VError.circularDep s] } : DfsState)
            = st' := congrArg Prod.snd (Option.some.inj h)
        subst hst
        exact ⟨fun a h1 h2 => hinv.1 a h1 h2, fun a h1 d h2 => hinv.2 a h1 d h2⟩
      | false =>
        simp only at h
        exact ih st₀ st' b h hinv.1 hinv.2

theorem checkCircularDeps_inv (services : List (String × ServiceConfig)) :
    ∀ fuel s st st' b, checkCircularDeps services fuel s st = some (b, st') →
      DisjSets st → DoneClosed services st →
      DisjSets st' ∧ DoneClosed services st' := by
  intro fuel
  induction fuel with
  | zero => intro s st st' b h; exact absurd h (by simp [checkCircularDeps])
  | succ fuel ih =>
    intro s st st' b h hdisj hdc
    simp only [checkCircularDeps] at h
    by_cases hv : s ∈ st.visiting
    · rw [if_pos hv] at h
      have hst : st = st' := congrArg Prod.snd (Option.some.inj h)
      subst hst; exact ⟨hdisj, hdc⟩
    · rw [if_neg hv] at h
      by_cases hd : s ∈ st.visited
      · rw [if_pos hd] at h
        have hst : st = st' := congrArg Prod.snd (Option.some.inj h)
        subst hst; exact ⟨hdisj, hdc⟩
      · rw [if_neg hd] at h
        cases hl : lookupService services s with
        | none => rw [hl] at h; exact absurd h (by simp)
        | some svc =>
          rw [hl] at h
          simp only at h
          have hdisj1 : DisjSets { st with visiting := s :: st.visiting } := by
            intro a h1 h2
            rcases List.mem_cons.1 h1 with h3 | h3
            · exact hd (h3 ▸ h2)
            · exact hdisj a h3 h2
          have hdc1 : DoneClosed services { st with visiting := s :: st.visiting } := hdc
          cases hcd : checkDeps (checkCircularDeps services fuel) s
              (svc.depends_on.getD []) { st with visiting := s :: st.visiting } with
          | none => rw [hcd] at h; exact absurd h (by simp)
          | some r =>
            obtain ⟨b₂, st₂⟩ := r
            rw [hcd] at h
            have hinv := checkDeps_inv services (checkCircularDeps services fuel) s
              (fun d st st' b hr => ih d st st' b hr)
              (svc.depends_on.getD []) _ _ _ hcd hdisj1 hdc1
            have hsh := checkDeps_shape (checkCircularDeps services fuel) s
              (fun d st st' b hr => checkCircularDeps_shape services fuel d st st' b hr)
              (svc.depends_on.getD []) _ _ _ hcd
            cases b₂ with
            | true =>
              simp only at h
              have hst : st₂ = st' := congrArg Prod.snd (Option.some.inj h)
              subst hst; exact hinv
            | false =>
              simp only at h
              have hst : ({ visiting := st₂.visiting.erase s,
                            visited := s :: st₂.visited,
                            errors := st₂.errors } : DfsState) = st' :=
                congrArg Prod.snd (Option.some.inj h)
              obtain ⟨hVeq, hEeq, hdAll⟩ := hsh.2.2.2.2 rfl
              have hV2 : st₂.visiting = s :: st.visiting := hVeq
              constructor
              · -- DisjSets st'
                intro a h1 h2
                rw [← hst] at h1 h2
                simp only at h1 h2
                rw [hV2, List.erase_cons_head] at h1
                rcases List.mem_cons.1 h2 with h3 | h3
                · exact hv (h3 ▸ h1)
                · exact hinv.1 a (by rw [hV2]; exact List.mem_cons_of_mem s h1) h3
              · -- DoneClosed st'
                intro a ha dep hdep
                rw [← hst] at ha ⊢
                simp only at ha ⊢
                rcases List.mem_cons.1 ha with h3 | h3
                · subst h3
                  have : dep ∈ svc.depends_on.getD [] := by
                    rwa [svcDeps_eq hl] at hdep
                  exact List.mem_cons_of_mem a (hdAll dep this)
                · exact List.mem_cons_of_mem s (hinv.2 a h3 dep hdep)

/-! ## DFS totality under defined dependencies

With every `depends_on` name defined, the only `none` source would be fuel
exhaustion, and fuel `services.length + 1` can never be exhausted: every
nested frame consumes one unit and removes one fresh service key. -/

theorem freshCount_le_of_mono (services : List (String × ServiceConfig))
    {st st' : DfsState}
    (h : ∀ a, a ∈ st.visiting ∨ a ∈ st.visited → a ∈ st'.visiting ∨ a ∈ st'.visited) :
    freshCount services st' ≤ freshCount services st := by
  unfold freshCount
  refine Finset.card_le_card ?_
  intro k hk
  rw [Finset.mem_filter] at hk ⊢
  refine ⟨hk.1, ?_⟩
  intro hmem
  exact hk.2 (h k hmem)

theorem freshCount_lt_of_push (services : List (String × ServiceConfig))
    {st : DfsState} {s : String} (hk : s ∈ keysFinset services)
    (hv : s ∉ st.visiting) (hd : s ∉ st.visited) :
    freshCount services { st with visiting := s :: st.visiting } < freshCount services st := by
  unfold freshCount
  refine Finset.card_lt_card ?_
  rw [Finset.ssubset_iff_of_subset ?_]
  · refine ⟨s, ?_, ?_⟩
    · rw [Finset.mem_filter]
      exact ⟨hk, by simp [hv, hd]⟩
    · rw [Finset.mem_filter]
      simp
  · intro k hkk
    rw [Finset.mem_filter] at hkk ⊢
    refine ⟨hkk.1, ?_⟩
    intro hmem
    refine hkk.2 ?_
    rcases hmem with h1 | h1
    · exact Or.inl (List.mem_cons_of_mem s h1)
    · exact Or.inr h1

theorem freshCount_le_length (services : List (String × ServiceConfig))
    (st : DfsState) : freshCount services st ≤ services.length := by
  unfold freshCount
  calc ((keysFinset services).filter _).card
      ≤ (keysFinset services).card := Finset.card_filter_le _ _
    _ ≤ (services.map Prod.fst).length := List.toFinset_card_le _
    _ = services.length := List.length_map _ _

theorem checkDeps_total (services : List (String × ServiceConfig))
    (recur : String → DfsState → Option (Bool × DfsState)) (s : String) (fuel : Nat)
    (HrecS : ∀ d st st' b, recur d st = some (b, st') → DfsShape d b st st')
    (HrecT : ∀ d st, (lookupService services d).isSome →
      freshCount services st + 1 ≤ fuel → (recur d st).isSome) :
    ∀ deps st, (∀ d ∈ deps, (lookupService services d).isSome) →
      freshCount services st + 1 ≤ fuel →
      (checkDeps recur s deps st).isSome := by
  intro deps
  induction deps with
  | nil => intro st _ _; simp [checkDeps]
  | cons d rest ih =>
    intro st hdef hfuel
    simp only [checkDeps]
    cases hrec : recur d st with
    | none =>
      have := HrecT d st (hdef d (by simp)) hfuel
      rw [hrec] at this; exact absurd this (by simp)
    | some r =>
      obtain ⟨b₀, st₀⟩ := r
      cases b₀ with
      | true => simp
      | false =>
        simp only
        have hmono := (HrecS d st st₀ false hrec).2.2.1
        refine ih st₀ (fun x hx => hdef x (List.mem_cons_of_mem d hx)) ?_
        calc freshCount services st₀ + 1
            ≤ freshCount services st + 1 :=
              Nat.add_le_add_right (freshCount_le_of_mono services hmono) 1
          _ ≤ fuel := hfuel

theorem checkCircularDeps_total (services : List (String × ServiceConfig))
    (hAll : AllDepsDefined services) :
    ∀ fuel s st, (lookupService services s).isSome →
      freshCount services st + 1 ≤ fuel →
      (checkCircularDeps services fuel s st).isSome := by
  intro fuel
  induction fuel with
  | zero => intro s st _ hfuel; omega
  | succ fuel ih =>
    intro s st hs hfuel
    simp only [checkCircularDeps]
    by_cases hv : s ∈ st.visiting
    · rw [if_pos hv]; simp
    · rw [if_neg hv]
      by_cases hd : s ∈ st.visited
      · rw [if_pos hd]; simp
      · rw [if_neg hd]
        cases hl : lookupService services s with
        | none => rw [hl] at hs; exact absurd hs (by simp)
        | some svc =>
          simp only
          have hmem : (s, svc) ∈ services := lookupService_eq_some_mem hl
          have hdefs : ∀ d ∈ svc.depends_on.getD [], (lookupService services d).isSome :=
            fun d hdep => hAll (s, svc) hmem d hdep
          have hkey : s ∈ keysFinset services := by
            unfold keysFinset
            rw [List.mem_toFinset]
            exact mem_keys_of_lookup hs
          have hfuel1 : freshCount services { st with visiting := s :: st.visiting } + 1 ≤ fuel := by
            have hlt := freshCount_lt_of_push services hkey hv hd
            omega
          have hcd := checkDeps_total services (checkCircularDeps services fuel) s fuel
            (fun d st st' b hr => checkCircularDeps_shape services fuel d st st' b hr)
            (fun d st hds hf => ih d st hds hf)
            (svc.depends_on.getD []) { st with visiting := s :: st.visiting }
            hdefs hfuel1
          cases hcd2 : checkDeps (checkCircularDeps services fuel) s
              (svc.depends_on.getD []) { st with visiting := s :: st.visiting } with
          | none => rw [hcd2] at hcd; exact absurd hcd (by simp)
          | some r =>
            obtain ⟨b₂, st₂⟩ := r
            cases b₂ <;> simp

/-! ## The path of errors pushed on a `true` return

When a search started at a fresh `s` returns `true`, the frames opened by
the search form a dependency path `p` starting at `s`; the last frame found
a back-edge into `p` itself or into the pre-existing `visiting` set; exactly
one `circularDep` error was pushed per frame of `p` (innermost first), and
every name of `p` is left in `visiting` (none is moved to `visited`). -/

theorem checkCircularDeps_imm (services : List (String × ServiceConfig)) :
    ∀ fuel s st b st', checkCircularDeps services fuel s st = some (b, st') →
      s ∈ st.visiting → b = true ∧ st' = st := by
  intro fuel s st b st' h hv
  cases fuel with
  | zero => exact absurd h (by simp [checkCircularDeps])
  | succ fuel =>
    simp only [checkCircularDeps] at h
    rw [if_pos hv] at h
    exact ⟨(congrArg Prod.fst (Option.some.inj h)).symm,
      (congrArg Prod.snd (Option.some.inj h)).symm⟩

theorem checkDeps_true_path (services : List (String × ServiceConfig))
    (recur : String → DfsState → Option (Bool × DfsState)) (s : String)
    (HrecS : ∀ d st st' b, recur d st = some (b, st') → DfsShape d b st st')
    (HrecImm : ∀ d st b st', recur d st = some (b, st') → d ∈ st.visiting →
      b = true ∧ st' = st)
    (HrecP : ∀ d st st', recur d st = some (true, st') → d ∉ st.visiting →
      ∃ p t, p.head? = some d ∧ List.Chain' (Edge services) p ∧
        (∃ x, p.getLast? = some x ∧ Edge services x t) ∧
        (t ∈ p ∨ t ∈ st.visiting) ∧
        st'.errors = st.errors ++ p.reverse.map VError.circularDep ∧
        st'.visiting = p.reverse ++ st.visiting) :
    ∀ deps st st', checkDeps recur s deps st = some (true, st') →
      (∀ d ∈ deps, Edge services s d) →
      ∃ p t, p.head? = some s ∧ List.Chain' (Edge services) p ∧
        (∃ x, p.getLast? = some x ∧ Edge services x t) ∧
        (t ∈ p ∨ t ∈ st.visiting) ∧
        st'.errors = st.errors ++ p.reverse.map VError.circularDep ∧
        st'.visiting = (p.drop 1).reverse ++ st.visiting := by
  intro deps
  induction deps with
  | nil => intro st st' h _; exact absurd h (by simp [checkDeps])
  | cons d rest ih =>
    intro st st' h hedge
    simp only [checkDeps] at h
    cases hrec : recur d st with
    | none => rw [hrec] at h; exact absurd h (by simp)
    | some r =>
      obtain ⟨b₀, st₀⟩ := r
      rw [hrec] at h
      cases b₀ with
      | true =>
        simp only at h
        have hst : ({ st₀ with errors := st₀.errors ++ [VError.circularDep s] } : DfsState)
            = st' := congrArg Prod.snd (Option.some.inj h)
        by_cases hdin : d ∈ st.visiting
        · -- immediate back-edge: the path is just [s]
          obtain ⟨_, hst0⟩ := HrecImm d st true st₀ hrec hdin
          subst hst0
          refine ⟨[s], d, rfl, List.chain'_singleton s, ⟨s, rfl, hedge d (by simp)⟩,
            Or.inr hdin, ?_, ?_⟩
          · rw [← hst]; simp
          · rw [← hst]; simp
        · -- the recursive call opened the path p₀ from d
          obtain ⟨p₀, t, hhead, hchain, ⟨x, hlast, hxt⟩, htmem, herr, hvis⟩ :=
            HrecP d st st₀ hrec hdin
          cases p₀ with
          | nil => exact absurd hhead (by simp)
          | cons d₀ p₁ =>
            have hd₀ : d₀ = d := by simpa using hhead
            subst hd₀
            refine ⟨s :: d₀ :: p₁, t, rfl, ?_, ⟨x, ?_, hxt⟩, ?_, ?_, ?_⟩
            · exact List.chain'_cons.2 ⟨hedge d₀ (by simp), hchain⟩
            · rwa [List.getLast?_cons_cons]
            · rcases htmem with h1 | h1
              · exact Or.inl (List.mem_cons_of_mem s h1)
              · exact Or.inr h1
            · rw [← hst]; simp only
              rw [herr]
              simp [List.map_append]
            · rw [← hst]; simp only
              rw [hvis]; simp
      | false =>
        simp only at h
        have hsh := HrecS d st st₀ false hrec
        obtain ⟨hVeq, hEeq, _⟩ := hsh.2.2.2.2 rfl
        obtain ⟨p, t, hhead, hchain, hend, htmem, herr, hvis⟩ :=
          ih st₀ st' h (fun x hx => hedge x (List.mem_cons_of_mem d hx))
        refine ⟨p, t, hhead, hchain, hend, by rwa [hVeq] at htmem,
          by rw [herr, hEeq], by rw [hvis, hVeq]⟩

theorem checkCircularDeps_true_path (services : List (String × ServiceConfig)) :
    ∀ fuel s st st', checkCircularDeps services fuel s st = some (true, st') →
      s ∉ st.visiting →
      ∃ p t, p.head? = some s ∧ List.Chain' (Edge services) p ∧
        (∃ x, p.getLast? = some x ∧ Edge services x t) ∧
        (t ∈ p ∨ t ∈ st.visiting) ∧
        st'.errors = st.errors ++ p.reverse.map VError.circularDep ∧
        st'.visiting = p.reverse ++ st.visiting := by
  intro fuel
  induction fuel with
  | zero => intro s st st' h; exact absurd h (by simp [checkCircularDeps])
  | succ fuel ih =>
    intro s st st' h hv
    simp only [checkCircularDeps] at h
    rw [if_neg hv] at h
    by_cases hd : s ∈ st.visited
    · rw [if_pos hd] at h
      exact absurd (congrArg Prod.fst (Option.some.inj h)) (by simp)
    · rw [if_neg hd] at h
      cases hl : lookupService services s with
      | none => rw [hl] at h; exact absurd h (by simp)
      | some svc =>
        rw [hl] at h
        simp only at h
        cases hcd : checkDeps (checkCircularDeps services fuel) s
            (svc.depends_on.getD []) { st with visiting := s :: st.visiting } with
        | none => rw [hcd] at h; exact absurd h (by simp)
        | some r =>
          obtain ⟨b₂, st₂⟩ := r
          rw [hcd] at h
          cases b₂ with
          | false =>
            simp only at h
            exact absurd (congrArg Prod.fst (Option.some.inj h)) (by simp)
          | true =>
            simp only at h
            have hst : st₂ = st' := congrArg Prod.snd (Option.some.inj h)
            subst hst
            have hedges : ∀ d ∈ svc.depends_on.getD [], Edge services s d := by
              intro d hdep
              unfold Edge
              rwa [svcDeps_eq hl]
            obtain ⟨p, t, hhead, hchain, hend, htmem, herr, hvis⟩ :=
              checkDeps_true_path services (checkCircularDeps services fuel) s
                (fun d st st' b hr => checkCircularDeps_shape services fuel d st st' b hr)
                (fun d st b st' hr hv => checkCircularDeps_imm services fuel d st b st' hr hv)
                (fun d st st' hr hv => ih d st st' hr hv)
                (svc.depends_on.getD []) _ _ hcd hedges
            refine ⟨p, t, hhead, hchain, hend, ?_, by simpa using herr, ?_⟩
            · rcases htmem with h1 | h1
              · exact Or.inl h1
              · rcases List.mem_cons.1 h1 with h2 | h2
                · subst h2
                  cases p with
                  | nil => exact absurd hhead (by simp)
                  | cons a q =>
                    have : a = t := by simpa using hhead
                    exact Or.inl (this ▸ List.mem_cons_self a q)
                · exact Or.inr h2
            · cases p with
              | nil => exact absurd hhead (by simp)
              | cons a q =>
                have ha : a = s := by simpa using hhead
                subst ha
                simp only [List.drop] at hvis
                rw [hvis]
                simp

/-! ## Reaching a leftover `visiting` name forces a cycle report

Names stranded in `visiting` by an earlier `true` return are never cleaned
up; any later search that can reach one of them along dependency edges
returns `true` and reports the searched service — even if that service lies
on no cycle itself. -/

theorem svcDeps_eq_nil_of_lookup_none {services : List (String × ServiceConfig)}
    {s : String} (h : lookupService services s = none) :
    svcDeps services s = [] := by
  unfold svcDeps
  rw [h]

theorem visited_closed_reach (services : List (String × ServiceConfig))
    {st : DfsState} (hdc : DoneClosed services st) {s t : String}
    (hreach : Relation.ReflTransGen (Edge services) s t) :
    s ∈ st.visited → t ∈ st.visited := by
  induction hreach using Relation.ReflTransGen.head_induction_on with
  | refl => exact id
  | head hab _ ih => exact fun hsv => ih (hdc _ hsv _ hab)

theorem checkDeps_reach (services : List (String × ServiceConfig))
    (recur : String → DfsState → Option (Bool × DfsState)) (s : String)
    (HrecS : ∀ d st st' b, recur d st = some (b, st') → DfsShape d b st st')
    (HrecI : ∀ d st st' b, recur d st = some (b, st') →
      DisjSets st → DoneClosed services st → DisjSets st' ∧ DoneClosed services st')
    (HrecImm : ∀ d st b st', recur d st = some (b, st') → d ∈ st.visiting →
      b = true ∧ st' = st)
    (HrecR : ∀ d st b st', recur d st = some (b, st') →
      DisjSets st → DoneClosed services st →
      ∀ t, t ∈ st.visiting → Relation.ReflTransGen (Edge services) d t →
      d ∉ st.visiting → b = true) :
    ∀ deps st st' b y t, checkDeps recur s deps st = some (b, st') →
      y ∈ deps → t ∈ st.visiting → DisjSets st → DoneClosed services st →
      Relation.ReflTransGen (Edge services) y t →
      b = true ∧ VError.circularDep s ∈ st'.errors := by
  intro deps
  induction deps with
  | nil => intro st st' b y t _ hy; exact absurd hy (by simp)
  | cons d rest ih =>
    intro st st' b y t h hy ht hdisj hdc hreach
    simp only [checkDeps] at h
    cases hrec : recur d st with
    | none => rw [hrec] at h; exact absurd h (by simp)
    | some r =>
      obtain ⟨b₀, st₀⟩ := r
      rw [hrec] at h
      cases b₀ with
      | true =>
        simp only at h
        have hb : true = b := congrArg Prod.fst (Option.some.inj h)
        have hst : ({ st₀ with errors := st₀.errors ++ [VError.circularDep s] } : DfsState)
            = st' := congrArg Prod.snd (Option.some.inj h)
        refine ⟨hb.symm, ?_⟩
        rw [← hst]
        simp
      | false =>
        simp only at h
        have hsh := HrecS d st st₀ false hrec
        obtain ⟨hVeq, hEeq, _⟩ := hsh.2.2.2.2 rfl
        have hinv := HrecI d st st₀ false hrec hdisj hdc
        rcases List.mem_cons.1 hy with hyd | hyr
        · -- the false-returning dependency is the reaching one: impossible
          subst hyd
          by_cases hyv : y ∈ st.visiting
          · exact absurd (HrecImm y st false st₀ hrec hyv).1 (by simp)
          · exact absurd (HrecR y st false st₀ hrec hdisj hdc t ht hreach hyv) (by simp)
        · exact ih st₀ st' b y t h hyr (hVeq ▸ ht) hinv.1 hinv.2 hreach

theorem checkCircularDeps_reach (services : List (String × ServiceConfig)) :
    ∀ fuel s st b st', checkCircularDeps services fuel s st = some (b, st') →
      DisjSets st → DoneClosed services st →
      ∀ t, t ∈ st.visiting → Relation.ReflTransGen (Edge services) s t →
      s ∉ st.visiting →
      b = true ∧ VError.circularDep s ∈ st'.errors := by
  intro fuel
  induction fuel with
  | zero => intro s st b st' h; exact absurd h (by simp [checkCircularDeps])
  | succ fuel ih =>
    intro s st b st' h hdisj hdc t ht hreach hv
    simp only [checkCircularDeps] at h
    rw [if_neg hv] at h
    by_cases hd : s ∈ st.visited
    · exact absurd (visited_closed_reach services hdc hreach hd)
        (fun htD => hdisj t ht htD)
    · rw [if_neg hd] at h
      rcases Relation.ReflTransGen.cases_head hreach with heq | ⟨y, hsy, hyt⟩
      · exact absurd (heq ▸ ht) hv
      · have hy : y ∈ svcDeps services s := hsy
        cases hl : lookupService services s with
        | none =>
          rw [svcDeps_eq_nil_of_lookup_none hl] at hy
          exact absurd hy (by simp)
        | some svc =>
          rw [hl] at h
          simp only at h
          have hy' : y ∈ svc.depends_on.getD [] := by
            rwa [svcDeps_eq hl] at hy
          have hdisj1 : DisjSets { st with visiting := s :: st.visiting } := by
            intro a h1 h2
            rcases List.mem_cons.1 h1 with h3 | h3
            · exact hd (h3 ▸ h2)
            · exact hdisj a h3 h2
          have hdc1 : DoneClosed services { st with visiting := s :: st.visiting } := hdc
          cases hcd : checkDeps (checkCircularDeps services fuel) s
              (svc.depends_on.getD []) { st with visiting := s :: st.visiting } with
          | none => rw [hcd] at h; exact absurd h (by simp)
          | some r =>
            obtain ⟨b₂, st₂⟩ := r
            rw [hcd] at h
            have hres := checkDeps_reach services (checkCircularDeps services fuel) s
              (fun d st st' b hr => checkCircularDeps_shape services fuel d st st' b hr)
              (fun d st st' b hr => checkCircularDeps_inv services fuel d st st' b hr)
              (fun d st b st' hr hvv => checkCircularDeps_imm services fuel d st b st' hr hvv)
              (fun d st b st' hr h1 h2 t ht hre hnv => (ih d st b st' hr h1 h2 t ht hre hnv).1)
              (svc.depends_on.getD []) _ _ _ y t hcd hy'
              (List.mem_cons_of_mem s ht) hdisj1 hdc1 hyt
            cases b₂ with
            | false => exact absurd hres.1 (by simp)
            | true =>
              simp only at h
              have hb : true = b := congrArg Prod.fst (Option.some.inj h)
              have hst : st₂ = st' := congrArg Prod.snd (Option.some.inj h)
              exact ⟨hb.symm, hst ▸ hres.2⟩

/-! ## Soundness: a `true` return means a cycle is reachable

Under the invariant that every name in `visiting` either reaches a cycle or
has a nonempty dependency path to the name being searched, a `true` return
implies the searched name reaches a cycle, and any error push implies the
graph has a cycle. -/

theorem edge_src_defined {services : List (String × ServiceConfig)} {a b : String}
    (h : Edge services a b) : (lookupService services a).isSome := by
  unfold Edge at h
  unfold svcDeps at h
  cases hl : lookupService services a with
  | none => rw [hl] at h; exact absurd h (by simp)
  | some svc => simp

theorem checkDeps_sound (services : List (String × ServiceConfig))
    (recur : String → DfsState → Option (Bool × DfsState)) (s : String)
    (HrecS : ∀ d st st' b, recur d st = some (b, st') → DfsShape d b st st')
    (HrecB : ∀ d st st' b, recur d st = some (b, st') →
      (∀ a ∈ st.visiting, ReachesCycle services a ∨
        Relation.TransGen (Edge services) a d) →
      (b = true → ReachesCycle services d) ∧
      (st'.errors = st.errors ∨ HasCycle services)) :
    ∀ deps st st' b, checkDeps recur s deps st = some (b, st') →
      (∀ d ∈ deps, Edge services s d) →
      (∀ a ∈ st.visiting, ReachesCycle services a ∨
        Relation.ReflTransGen (Edge services) a s) →
      (b = true → ReachesCycle services s) ∧
      (st'.errors = st.errors ∨ HasCycle services) := by
  intro deps
  induction deps with
  | nil =>
    intro st st' b h _ _
    simp only [checkDeps] at h
    obtain ⟨hb, hst⟩ : false = b ∧ st = st' := by
      constructor <;> [exact congrArg Prod.fst (Option.some.inj h);
        exact congrArg Prod.snd (Option.some.inj h)]
    subst hb; subst hst
    exact ⟨by simp, Or.inl rfl⟩
  | cons d rest ih =>
    intro st st' b h hedge hH
    simp only [checkDeps] at h
    cases hrec : recur d st with
    | none => rw [hrec] at h; exact absurd h (by simp)
    | some r =>
      obtain ⟨b₀, st₀⟩ := r
      rw [hrec] at h
      have hsd : Edge services s d := hedge d (by simp)
      have hHd : ∀ a ∈ st.visiting, ReachesCycle services a ∨
          Relation.TransGen (Edge services) a d := by
        intro a ha
        rcases hH a ha with h1 | h1
        · exact Or.inl h1
        · exact Or.inr (Relation.TransGen.tail' h1 hsd)
      have hB := HrecB d st st₀ b₀ hrec hHd
      cases b₀ with
      | true =>
        simp only at h
        obtain ⟨hb, hst⟩ : true = b ∧
            ({ st₀ with errors := st₀.errors ++ [VError.circularDep s] } : DfsState) = st' := by
          constructor <;> [exact congrArg Prod.fst (Option.some.inj h);
            exact congrArg Prod.snd (Option.some.inj h)]
        subst hb; subst hst
        have hRCd : ReachesCycle services d := hB.1 rfl
        obtain ⟨c, hdc, hcyc⟩ := hRCd
        refine ⟨fun _ => ⟨c, Relation.ReflTransGen.head hsd hdc, hcyc⟩,
          Or.inr ⟨c, hcyc⟩⟩
      | false =>
        simp only at h
        have hVeq := ((HrecS d st st₀ false hrec).2.2.2.2 rfl).1
        have hres := ih st₀ st' b h (fun x hx => hedge x (List.mem_cons_of_mem d hx))
          (fun a ha => hH a (hVeq ▸ ha))
        refine ⟨hres.1, ?_⟩
        rcases hres.2 with h1 | h1
        · rcases hB.2 with h2 | h2
          · exact Or.inl (by rw [h1, h2])
          · exact Or.inr h2
        · exact Or.inr h1

theorem checkCircularDeps_sound (services : List (String × ServiceConfig)) :
    ∀ fuel s st b st', checkCircularDeps services fuel s st = some (b, st') →
      (∀ a ∈ st.visiting, ReachesCycle services a ∨
        Relation.TransGen (Edge services) a s) →
      (b = true → ReachesCycle services s) ∧
      (st'.errors = st.errors ∨ HasCycle services) := by
  intro fuel
  induction fuel with
  | zero => intro s st b st' h; exact absurd h (by simp [checkCircularDeps])
  | succ fuel ih =>
    intro s st b st' h hH
    simp only [checkCircularDeps] at h
    by_cases hv : s ∈ st.visiting
    · rw [if_pos hv] at h
      obtain ⟨hb, hst⟩ : true = b ∧ st = st' := by
        constructor <;> [exact congrArg Prod.fst (Option.some.inj h);
          exact congrArg Prod.snd (Option.some.inj h)]
      subst hb; subst hst
      refine ⟨fun _ => ?_, Or.inl rfl⟩
      rcases hH s hv with h1 | h1
      · exact h1
      · exact ⟨s, Relation.ReflTransGen.refl, h1⟩
    · rw [if_neg hv] at h
      by_cases hd : s ∈ st.visited
      · rw [if_pos hd] at h
        obtain ⟨hb, hst⟩ : false = b ∧ st = st' := by
          constructor <;> [exact congrArg Prod.fst (Option.some.inj h);
            exact congrArg Prod.snd (Option.some.inj h)]
        subst hb; subst hst
        exact ⟨by simp, Or.inl rfl⟩
      · rw [if_neg hd] at h
        cases hl : lookupService services s with
        | none => rw [hl] at h; exact absurd h (by simp)
        | some svc =>
          rw [hl] at h
          simp only at h
          have hedges : ∀ d ∈ svc.depends_on.getD [], Edge services s d := by
            intro d hdep
            unfold Edge
            rwa [svcDeps_eq hl]
          have hH1 : ∀ a ∈ (s :: st.visiting), ReachesCycle services a ∨
              Relation.ReflTransGen (Edge services) a s := by
            intro a ha
            rcases List.mem_cons.1 ha with h1 | h1
            · exact Or.inr (h1 ▸ Relation.ReflTransGen.refl)
            · rcases hH a h1 with h2 | h2
              · exact Or.inl h2
              · exact Or.inr h2.to_reflTransGen
          cases hcd : checkDeps (checkCircularDeps services fuel) s
              (svc.depends_on.getD []) { st with visiting := s :: st.visiting } with
          | none => rw [hcd] at h; exact absurd h (by simp)
          | some r =>
            obtain ⟨b₂, st₂⟩ := r
            rw [hcd] at h
            have hres := checkDeps_sound services (checkCircularDeps services fuel) s
              (fun d st st' b hr => checkCircularDeps_shape services fuel d st st' b hr)
              (fun d st st' b hr hHd => ih d st b st' hr hHd)
              (svc.depends_on.getD []) _ _ _ hcd hedges hH1
            cases b₂ with
            | true =>
              simp only at h
              obtain ⟨hb, hst⟩ : true = b ∧ st₂ = st' := by
                constructor <;> [exact congrArg Prod.fst (Option.some.inj h);
                  exact congrArg Prod.snd (Option.some.inj h)]
              subst hb; subst hst
              exact ⟨hres.1, hres.2⟩
            | false =>
              simp only at h
              obtain ⟨hb, hst⟩ : false = b ∧
                  ({ visiting := st₂.visiting.erase s,
                     visited := s :: st₂.visited,
                     errors := st₂.errors } : DfsState) = st' := by
                constructor <;> [exact congrArg Prod.fst (Option.some.inj h);
                  exact congrArg Prod.snd (Option.some.inj h)]
              subst hb
              refine ⟨by simp, ?_⟩
              rw [← hst]
              exact hres.2

/-! ## Cycle-freeness: a `false` return means no cycle is reachable -/

theorem not_reachesCycle_of_deps (services : List (String × ServiceConfig))
    {s : String} (h : ∀ d ∈ svcDeps services s, ¬ ReachesCycle services d) :
    ¬ ReachesCycle services s := by
  rintro ⟨c, hreach, hcyc⟩
  rcases Relation.ReflTransGen.cases_head hreach with heq | ⟨y, hsy, hyc⟩
  · subst heq
    obtain ⟨y, hsy, hys⟩ := Relation.TransGen.head'_iff.1 hcyc
    exact h y hsy ⟨s, hys, hcyc⟩
  · exact h y hsy ⟨c, hyc, hcyc⟩

theorem checkDeps_cycleFree (services : List (String × ServiceConfig))
    (recur : String → DfsState → Option (Bool × DfsState)) (s : String)
    (HrecF : ∀ d st st' b, recur d st = some (b, st') →
      CycleFree services st →
      CycleFree services st' ∧ (b = false → ¬ ReachesCycle services d)) :
    ∀ deps st st' b, checkDeps recur s deps st = some (b, st') →
      CycleFree services st →
      CycleFree services st' ∧
      (b = false → ∀ d ∈ deps, ¬ ReachesCycle services d) := by
  intro deps
  induction deps with
  | nil =>
    intro st st' b h hcf
    simp only [checkDeps] at h
    obtain ⟨hb, hst⟩ : false = b ∧ st = st' := by
      constructor <;> [exact congrArg Prod.fst (Option.some.inj h);
        exact congrArg Prod.snd (Option.some.inj h)]
    subst hb; subst hst
    exact ⟨hcf, by simp⟩
  | cons d rest ih =>
    intro st st' b h hcf
    simp only [checkDeps] at h
    cases hrec : recur d st with
    | none => rw [hrec] at h; exact absurd h (by simp)
    | some r =>
      obtain ⟨b₀, st₀⟩ := r
      rw [hrec] at h
      have hF := HrecF d st st₀ b₀ hrec hcf
      cases b₀ with
      | true =>
        simp only at h
        have hst : ({ st₀ with errors := st₀.errors ++ [VError.circularDep s] } : DfsState)
            = st' := congrArg Prod.snd (Option.some.inj h)
        have hb : true = b := congrArg Prod.fst (Option.some.inj h)
        subst hst
        exact ⟨hF.1, fun hb' => absurd (hb ▸ hb') (by simp)⟩
      | false =>
        simp only at h
        have hres := ih st₀ st' b h hF.1
        refine ⟨hres.1, fun hb x hx => ?_⟩
        rcases List.mem_cons.1 hx with h1 | h1
        · exact h1 ▸ hF.2 rfl
        · exact hres.2 hb x h1

theorem checkCircularDeps_cycleFree (services : List (String × ServiceConfig)) :
    ∀ fuel s st st' b, checkCircularDeps services fuel s st = some (b, st') →
      CycleFree services st →
      CycleFree services st' ∧ (b = false → ¬ ReachesCycle services s) := by
  intro fuel
  induction fuel with
  | zero => intro s st st' b h; exact absurd h (by simp [checkCircularDeps])
  | succ fuel ih =>
    intro s st st' b h hcf
    simp only [checkCircularDeps] at h
    by_cases hv : s ∈ st.visiting
    · rw [if_pos hv] at h
      obtain ⟨hb, hst⟩ : true = b ∧ st = st' := by
        constructor <;> [exact congrArg Prod.fst (Option.some.inj h);
          exact congrArg Prod.snd (Option.some.inj h)]
      subst hb; subst hst
      exact ⟨hcf, by simp⟩
    · rw [if_neg hv] at h
      by_cases hd : s ∈ st.visited
      · rw [if_pos hd] at h
        obtain ⟨hb, hst⟩ : false = b ∧ st = st' := by
          constructor <;> [exact congrArg Prod.fst (Option.some.inj h);
            exact congrArg Prod.snd (Option.some.inj h)]
        subst hb; subst hst
        exact ⟨hcf, fun _ => hcf s hd⟩
      · rw [if_neg hd] at h
        cases hl : lookupService services s with
        | none => rw [hl] at h; exact absurd h (by simp)
        | some svc =>
          rw [hl] at h
          simp only at h
          cases hcd : checkDeps (checkCircularDeps services fuel) s
              (svc.depends_on.getD []) { st with visiting := s :: st.visiting } with
          | none => rw [hcd] at h; exact absurd h (by simp)
          | some r =>
            obtain ⟨b₂, st₂⟩ := r
            rw [hcd] at h
            have hres := checkDeps_cycleFree services (checkCircularDeps services fuel) s
              (fun d st st' b hr hc => ih d st st' b hr hc)
              (svc.depends_on.getD []) _ _ _ hcd hcf
            cases b₂ with
            | true =>
              simp only at h
              obtain ⟨hb, hst⟩ : true = b ∧ st₂ = st' := by
                constructor <;> [exact congrArg Prod.fst (Option.some.inj h);
                  exact congrArg Prod.snd (Option.some.inj h)]
              subst hb; subst hst
              exact ⟨hres.1, by simp⟩
            | false =>
              simp only at h
              obtain ⟨hb, hst⟩ : false = b ∧
                  ({ visiting := st₂.visiting.erase s,
                     visited := s :: st₂.visited,
                     errors := st₂.errors } : DfsState) = st' := by
                constructor <;> [exact congrArg Prod.fst (Option.some.inj h);
                  exact congrArg Prod.snd (Option.some.inj h)]
              subst hb
              have hnotS : ¬ ReachesCycle services s := by
                refine not_reachesCycle_of_deps services ?_
                rw [svcDeps_eq hl]
                exact hres.2 rfl
              refine ⟨?_, fun _ => hnotS⟩
              intro a ha
              rw [← hst] at ha
              rcases List.mem_cons.1 ha with h1 | h1
              · exact h1 ▸ hnotS
              · exact hres.1 a h1

/-! ## The top-level cycle-check loop -/

theorem chain'_reflTransGen_getLast {α : Type} {r : α → α → Prop} :
    ∀ (p : List α), List.Chain' r p → ∀ a ∈ p, ∀ x, p.getLast? = some x →
      Relation.ReflTransGen r a x := by
  intro p
  induction p with
  | nil => simp
  | cons b q ih =>
    intro hchain a ha x hlast
    rcases List.mem_cons.1 ha with hab | haq
    · subst hab
      cases q with
      | nil =>
        simp only [List.getLast?_singleton, Option.some.injEq] at hlast
        exact hlast ▸ Relation.ReflTransGen.refl
      | cons c q' =>
        rw [List.getLast?_cons_cons] at hlast
        have hbc : r a c := (List.chain'_cons.1 hchain).1
        exact Relation.ReflTransGen.head hbc
          (ih (List.chain'_cons.1 hchain).2 c (by simp) x hlast)
    · cases q with
      | nil => exact absurd haq (by simp)
      | cons c q' =>
        rw [List.getLast?_cons_cons] at hlast
        exact ih (List.chain'_cons.1 hchain).2 a haq x hlast

/-- The names of a `true`-returning search path all reach a cycle (given
that the pre-existing `visiting` names do). -/
theorem path_reachesCycle (services : List (String × ServiceConfig))
    {st : DfsState} {p : List String} {t x : String}
    (hchain : List.Chain' (Edge services) p)
    (hlast : p.getLast? = some x) (hxt : Edge services x t)
    (htmem : t ∈ p ∨ t ∈ st.visiting)
    (hvrc : ∀ a ∈ st.visiting, ReachesCycle services a) :
    ∀ a ∈ p, ReachesCycle services a := by
  intro a ha
  have hax : Relation.ReflTransGen (Edge services) a x :=
    chain'_reflTransGen_getLast p hchain a ha x hlast
  have hat : Relation.ReflTransGen (Edge services) a t :=
    Relation.ReflTransGen.tail hax hxt
  rcases htmem with h1 | h1
  · -- the back-edge target is on the path: a genuine cycle through t
    have htx : Relation.ReflTransGen (Edge services) t x :=
      chain'_reflTransGen_getLast p hchain t h1 x hlast
    exact ⟨t, hat, Relation.TransGen.tail' htx hxt⟩
  · -- the back-edge target is a leftover `visiting` name, which reaches a cycle
    obtain ⟨c, htc, hcyc⟩ := hvrc t h1
    exact ⟨c, Relation.ReflTransGen.trans hat htc, hcyc⟩

theorem cycleLoop_errors (services : List (String × ServiceConfig)) :
    ∀ names st st₂, cycleLoop services names st = some st₂ →
      ∃ delta, st₂.errors = st.errors ++ delta ∧
        ∀ e ∈ delta, ∃ n, e = VError.circularDep n := by
  intro names
  induction names with
  | nil =>
    intro st st₂ h
    simp only [cycleLoop] at h
    exact ⟨[], by simp [← Option.some.inj h], by simp⟩
  | cons n rest ih =>
    intro st st₂ h
    simp only [cycleLoop] at h
    cases hcc : checkCircularDeps services (services.length + 1) n st with
    | none => rw [hcc] at h; exact absurd h (by simp)
    | some r =>
      obtain ⟨b, st'⟩ := r
      rw [hcc] at h
      obtain ⟨δ₀, hδ₀, hδ₀c⟩ :=
        (checkCircularDeps_shape services _ n st st' b hcc).2.2.2.1
      obtain ⟨δ₁, hδ₁, hδ₁c⟩ := ih st' st₂ h
      refine ⟨δ₀ ++ δ₁, by rw [hδ₁, hδ₀, List.append_assoc], ?_⟩
      intro e he
      rcases List.mem_append.1 he with h1 | h1
      · exact hδ₀c e h1
      · exact hδ₁c e h1

theorem cycleLoop_sound (services : List (String × ServiceConfig)) :
    ∀ names st st₂, cycleLoop services names st = some st₂ →
      (∀ a ∈ st.visiting, ReachesCycle services a) →
      (st₂.errors = st.errors ∨ HasCycle services) ∧
      (∀ a ∈ st₂.visiting, ReachesCycle services a) := by
  intro names
  induction names with
  | nil =>
    intro st st₂ h hvrc
    simp only [cycleLoop] at h
    have hst : st = st₂ := Option.some.inj h
    subst hst
    exact ⟨Or.inl rfl, hvrc⟩
  | cons n rest ih =>
    intro st st₂ h hvrc
    simp only [cycleLoop] at h
    cases hcc : checkCircularDeps services (services.length + 1) n st with
    | none => rw [hcc] at h; exact absurd h (by simp)
    | some r =>
      obtain ⟨b, st'⟩ := r
      rw [hcc] at h
      have hsound := checkCircularDeps_sound services _ n st b st' hcc
        (fun a ha => Or.inl (hvrc a ha))
      have hvrc' : ∀ a ∈ st'.visiting, ReachesCycle services a := by
        cases b with
        | false =>
          have hVeq := ((checkCircularDeps_shape services _ n st st' false hcc).2.2.2.2 rfl).1
          exact fun a ha => hvrc a (hVeq ▸ ha)
        | true =>
          by_cases hv : n ∈ st.visiting
          · have hst := (checkCircularDeps_imm services _ n st true st' hcc hv).2
            exact fun a ha => hvrc a (hst ▸ ha)
          · obtain ⟨p, t, hhead, hchain, ⟨x, hlast, hxt⟩, htmem, herr, hvis⟩ :=
              checkCircularDeps_true_path services _ n st st' hcc hv
            intro a ha
            rw [hvis] at ha
            rcases List.mem_append.1 ha with h1 | h1
            · exact path_reachesCycle services hchain hlast hxt htmem hvrc a
                (List.mem_reverse.1 h1)
            · exact hvrc a h1
      have hres := ih st' st₂ h hvrc'
      refine ⟨?_, hres.2⟩
      rcases hres.1 with h1 | h1
      · rcases hsound.2 with h2 | h2
        · exact Or.inl (by rw [h1, h2])
        · exact Or.inr h2
      · exact Or.inr h1

theorem cycleLoop_complete (services : List (String × ServiceConfig)) :
    ∀ names st st₂, cycleLoop services names st = some st₂ →
      st.visiting = [] → CycleFree services st →
      st₂.errors = st.errors →
      ∀ n ∈ names, ¬ ReachesCycle services n := by
  intro names
  induction names with
  | nil => intro st st₂ _ _ _ _ n hn; exact absurd hn (by simp)
  | cons m rest ih =>
    intro st st₂ h hnil hcf heq
    simp only [cycleLoop] at h
    cases hcc : checkCircularDeps services (services.length + 1) m st with
    | none => rw [hcc] at h; exact absurd h (by simp)
    | some r =>
      obtain ⟨b, st'⟩ := r
      rw [hcc] at h
      -- the per-call and loop error lists extend st.errors; equality of the
      -- endpoints forces both extensions to be empty
      obtain ⟨δ₀, hδ₀, _⟩ :=
        (checkCircularDeps_shape services _ m st st' b hcc).2.2.2.1
      obtain ⟨δ₁, hδ₁, _⟩ := cycleLoop_errors services rest st' st₂ h
      have hlen : δ₀ = [] ∧ δ₁ = [] := by
        rw [hδ₀, List.append_assoc] at hδ₁
        have : st.errors ++ (δ₀ ++ δ₁) = st.errors ++ [] := by
          rw [List.append_nil, ← hδ₁, heq]
        have h2 := List.append_cancel_left this
        exact List.append_eq_nil.1 h2
      cases b with
      | true =>
        exfalso
        by_cases hv : m ∈ st.visiting
        · rw [hnil] at hv; exact absurd hv (by simp)
        · obtain ⟨p, t, hhead, _, _, _, herr, _⟩ :=
            checkCircularDeps_true_path services _ m st st' hcc hv
          rw [hδ₀] at herr
          have hp : p.reverse.map VError.circularDep = δ₀ :=
            (List.append_cancel_left herr).symm
          rw [hlen.1] at hp
          cases p with
          | nil => exact absurd hhead (by simp)
          | cons a q => simp at hp
      | false =>
        have hVeq := ((checkCircularDeps_shape services _ m st st' false hcc).2.2.2.2 rfl).1
        have hcf' := checkCircularDeps_cycleFree services _ m st st' false hcc hcf
        intro n hn
        rcases List.mem_cons.1 hn with h1 | h1
        · exact h1 ▸ hcf'.2 rfl
        · refine ih st' st₂ h (by rw [hVeq, hnil]) hcf'.1 ?_ n h1
          rw [hδ₁, hlen.2]
          simp

theorem cycleLoop_total (services : List (String × ServiceConfig))
    (hAll : AllDepsDefined services) :
    ∀ names st, (∀ n ∈ names, (lookupService services n).isSome) →
      (cycleLoop services names st).isSome := by
  intro names
  induction names with
  | nil => intro st _; simp [cycleLoop]
  | cons n rest ih =>
    intro st hdef
    simp only [cycleLoop]
    have hfuel : freshCount services st + 1 ≤ services.length + 1 := by
      have := freshCount_le_length services st
      omega
    have htot := checkCircularDeps_total services hAll (services.length + 1) n st
      (hdef n (by simp)) hfuel
    cases hcc : checkCircularDeps services (services.length + 1) n st with
    | none => rw [hcc] at htot; exact absurd htot (by simp)
    | some r =>
      obtain ⟨b, st'⟩ := r
      exact ih st' (fun x hx => hdef x (List.mem_cons_of_mem n hx))

/-- Correctness of the whole cycle pass: with all dependencies defined it
returns (never throws), and the final error list contains a `circularDep`
entry beyond the initial errors iff the dependency graph has a cycle. -/
theorem runCycleChecks_correct (services : List (String × ServiceConfig))
    (hAll : AllDepsDefined services) (errors0 : List VError) :
    ∃ final, runCycleChecks services errors0 = some final ∧
      ∃ delta, final = errors0 ++ delta ∧
        (∀ e ∈ delta, ∃ n, e = VError.circularDep n) ∧
        (delta ≠ [] ↔ HasCycle services) := by
  have hdef : ∀ n ∈ services.map Prod.fst, (lookupService services n).isSome :=
    fun n hn => lookup_isSome_of_mem_keys hn
  have htot := cycleLoop_total services hAll (services.map Prod.fst)
    { visiting := [], visited := [], errors := errors0 } hdef
  cases hloop : cycleLoop services (services.map Prod.fst)
      { visiting := [], visited := [], errors := errors0 } with
  | none => rw [hloop] at htot; exact absurd htot (by simp)
  | some stF =>
    obtain ⟨delta, hδ, hδc⟩ := cycleLoop_errors services _ _ _ hloop
    refine ⟨stF.errors, by simp [runCycleChecks, hloop], delta, hδ, hδc, ?_, ?_⟩
    · -- delta nonempty → the graph has a cycle
      intro hne
      have hsound := cycleLoop_sound services _ _ _ hloop (by simp)
      rcases hsound.1 with h1 | h1
      · exfalso
        have h2 : errors0 ++ delta = errors0 ++ [] := by
          rw [← hδ, h1]; simp
        exact hne (List.append_cancel_left h2)
      · exact h1
    · -- the graph has a cycle → delta nonempty
      rintro ⟨c, hcyc⟩ hδnil
      have heq0 : stF.errors = errors0 := by rw [hδ, hδnil]; simp
      have hcomp := cycleLoop_complete services _ _ _ hloop rfl (by intro a ha; simp at ha)
        heq0
      obtain ⟨y, hcy, _⟩ := Relation.TransGen.head'_iff.1 hcyc
      have hcdef : (lookupService services c).isSome := edge_src_defined hcy
      have hckey : c ∈ services.map Prod.fst := mem_keys_of_lookup hcdef
      exact hcomp c hckey ⟨c, Relation.ReflTransGen.refl, hcyc⟩

/-! ## Characterizing a returned ValidationResult -/

/-- Whenever `validateConfig` returns, the errors are the project, server and
service phase errors followed by the cycle-pass pushes (all `circularDep`),
the warnings are the three phases' warnings, and `valid` is exactly
`errors.length == 0`. -/
theorem validateConfig_shape {config : AirstackConfig} {r : ValidationResult}
    (h : validateConfig config = some r) :
    ∃ cyc, (∀ e ∈ cyc, ∃ n, e = VError.circularDep n) ∧
      r.errors = (projectChecks config.project).1 ++ (serverChecks (serversOf config)).1 ++
        (serviceChecks (entriesOf config)).1 ++ cyc ∧
      r.warnings = (projectChecks config.project).2 ++ (serverChecks (serversOf config)).2 ++
        (serviceChecks (entriesOf config)).2 ∧
      r.valid = (r.errors.length == 0) := by
  unfold validateConfig at h
  cases hs : config.services with
  | none =>
    rw [hs] at h
    simp only at h
    have hr := (Option.some.inj h).symm
    refine ⟨[], by simp, ?_, ?_, ?_⟩
    · rw [hr]
      simp only
      unfold entriesOf
      rw [hs]
      simp [serviceChecks, serviceChecksGo]
    · rw [hr]
      simp only
      unfold entriesOf
      rw [hs]
      simp [serviceChecks, serviceChecksGo]
    · rw [hr]
  | some services =>
    rw [hs] at h
    simp only at h
    cases hrun : runCycleChecks services
        ((projectChecks config.project).1 ++ (serverChecks (serversOf config)).1 ++
          (serviceChecks services).1) with
    | none => rw [hrun] at h; exact absurd h (by simp)
    | some finalErrors =>
      rw [hrun] at h
      simp only at h
      have hr := (Option.some.inj h).symm
      unfold runCycleChecks at hrun
      cases hloop : cycleLoop services (services.map Prod.fst)
          { visiting := [], visited := [],
            errors := (projectChecks config.project).1 ++ (serverChecks (serversOf config)).1 ++
              (serviceChecks services).1 } with
      | none => rw [hloop] at hrun; exact absurd hrun (by simp)
      | some stF =>
        rw [hloop] at hrun
        simp only [Option.map_some'] at hrun
        obtain ⟨delta, hδ, hδc⟩ := cycleLoop_errors services _ _ _ hloop
        have hfin : finalErrors =
            (projectChecks config.project).1 ++ (serverChecks (serversOf config)).1 ++
              (serviceChecks services).1 ++ delta := by
          rw [← Option.some.inj hrun, hδ]
        refine ⟨delta, hδc, ?_, ?_, ?_⟩
        · rw [hr]
          simp only
          unfold entriesOf
          rw [hs]
          exact hfin
        · rw [hr]
          simp only
          unfold entriesOf
          rw [hs]
          simp
        · rw [hr]

/-! ## Shapes of the phase-check findings -/

theorem projectChecks_errors_shape (p : ProjectConfig) :
    ∀ e ∈ (projectChecks p).1, e = VError.projectNameEmpty := by
  intro e he
  unfold projectChecks at he
  by_cases h : trimEmpty p.name <;> simp [h] at he <;> exact he

theorem serverChecksGo_errors_shape :
    ∀ (l : List ServerConfig) (seen : List String) (e : VError),
      e ∈ (serverChecksGo seen l).1 →
      (∃ n, e = VError.duplicateServer n) ∨ e = VError.serverNameEmpty := by
  intro l
  induction l with
  | nil => intro seen e he; exact absurd he (by simp [serverChecksGo])
  | cons srv rest ih =>
    intro seen e he
    simp only [serverChecksGo] at he
    rcases List.mem_append.1 he with h1 | h1
    · rcases List.mem_append.1 h1 with h2 | h2
      · by_cases h : srv.name ∈ seen <;> simp [h] at h2
        exact Or.inl ⟨srv.name, h2⟩
      · by_cases h : trimEmpty srv.name <;> simp [h] at h2
        exact Or.inr h2
    · exact ih (srv.name :: seen) e h1

theorem serviceChecksGo_errors_shape (services : List (String × ServiceConfig)) :
    ∀ (l : List (String × ServiceConfig)) (seen : List String) (e : VError),
      e ∈ (serviceChecksGo services seen l).1 →
      (∃ n, e = VError.duplicateService n) ∨ (∃ n, e = VError.serviceImageEmpty n) ∨
      (∃ n p, e = VError.invalidPort n p) ∨ (∃ n d, e = VError.missingDep n d) := by
  intro l
  induction l with
  | nil => intro seen e he; exact absurd he (by simp [serviceChecksGo])
  | cons entry rest ih =>
    obtain ⟨name, svc⟩ := entry
    intro seen e he
    simp only [serviceChecksGo] at he
    rcases List.mem_append.1 he with h1 | h1
    swap
    · exact ih (name :: seen) e h1
    rcases List.mem_append.1 h1 with h2 | h2
    swap
    · rcases List.mem_filterMap.1 h2 with ⟨d, _, hd⟩
      by_cases h : (lookupService services d).isNone <;> simp [h] at hd
      exact Or.inr (Or.inr (Or.inr ⟨name, d, hd.symm⟩))
    rcases List.mem_append.1 h2 with h3 | h3
    swap
    · rcases List.mem_filterMap.1 h3 with ⟨q, _, hq⟩
      by_cases h : q < 1 ∨ q > 65535 <;> simp [h] at hq
      exact Or.inr (Or.inr (Or.inl ⟨name, q, hq.symm⟩))
    rcases List.mem_append.1 h3 with h4 | h4
    · by_cases h : name ∈ seen <;> simp [h] at h4
      exact Or.inl ⟨name, h4⟩
    · by_cases h : trimEmpty svc.image <;> simp [h] at h4
      exact Or.inr (Or.inl ⟨name, h4⟩)

theorem projectChecks_warnings_shape (p : ProjectConfig) :
    ∀ w ∈ (projectChecks p).2, w = VWarning.projectNameSpaces := by
  intro w hw
  unfold projectChecks at hw
  by_cases h : strContains p.name ' ' <;> simp [h] at hw <;> exact hw

theorem serverChecksGo_warnings_shape :
    ∀ (l : List ServerConfig) (seen : List String) (w : VWarning),
      w ∈ (serverChecksGo seen l).2 →
      (∃ pr n, w = VWarning.unknownProvider pr n) ∨ (∃ n, w = VWarning.sshKeyFormat n) := by
  intro l
  induction l with
  | nil => intro seen w hw; exact absurd hw (by simp [serverChecksGo])
  | cons srv rest ih =>
    intro seen w hw
    simp only [serverChecksGo] at hw
    rcases List.mem_append.1 hw with h1 | h1
    · rcases List.mem_append.1 h1 with h2 | h2
      · by_cases h : srv.provider ∈ ["hetzner"]
        · rw [if_pos h] at h2; exact absurd h2 (by simp)
        · rw [if_neg h] at h2; simp at h2
          exact Or.inl ⟨srv.provider, srv.name, h2⟩
      · by_cases h : srv.ssh_key ≠ "" ∧ ¬ strContains srv.ssh_key '/' ∧
            ¬ strHeadIs srv.ssh_key '~'
        · rw [if_pos h] at h2; simp at h2
          exact Or.inr ⟨srv.name, h2⟩
        · rw [if_neg h] at h2; exact absurd h2 (by simp)
    · exact ih (srv.name :: seen) w h1

/-! ## Duplicate-server counting (claim C6) -/

theorem serverChecksGo_dup_count (x : String) :
    ∀ (l : List ServerConfig) (seen : List String),
      ((serverChecksGo seen l).1.count (VError.duplicateServer x)) =
        if x ∈ seen then (l.map ServerConfig.name).count x
        else (l.map ServerConfig.name).count x - 1 := by
  intro l
  induction l with
  | nil => intro seen; by_cases h : x ∈ seen <;> simp [serverChecksGo, h]
  | cons srv rest ih =>
    intro seen
    simp only [serverChecksGo, List.map_cons]
    rw [List.count_append, List.count_append]
    have hname : ((if trimEmpty srv.name then [VError.serverNameEmpty] else []).count
        (VError.duplicateServer x)) = 0 := by
      by_cases h : trimEmpty srv.name <;> simp [h, List.count_cons, List.count_nil]
    rw [hname]
    have hrest := ih (srv.name :: seen)
    by_cases hx : srv.name = x
    · subst hx
      have hrest' : ((serverChecksGo (srv.name :: seen) rest).1.count
          (VError.duplicateServer srv.name)) =
          (rest.map ServerConfig.name).count srv.name := by
        rw [hrest, if_pos (List.mem_cons_self srv.name seen)]
      by_cases hseen : srv.name ∈ seen
      · have hdup : ((if srv.name ∈ seen then [VError.duplicateServer srv.name] else []).count
            (VError.duplicateServer srv.name)) = 1 := by
          rw [if_pos hseen]; simp
        rw [hdup, hrest', if_pos hseen, List.count_cons_self]
        omega
      · have hdup : ((if srv.name ∈ seen then [VError.duplicateServer srv.name] else []).count
            (VError.duplicateServer srv.name)) = 0 := by
          rw [if_neg hseen]; simp
        rw [hdup, hrest', if_neg hseen, List.count_cons_self]
        omega
    · have hdup : ((if srv.name ∈ seen then [VError.duplicateServer srv.name] else []).count
          (VError.duplicateServer x)) = 0 := by
        by_cases h : srv.name ∈ seen
        · rw [if_pos h]; simp [List.count_cons, hx]
        · rw [if_neg h]; simp
      have hxs : x ≠ srv.name := fun h => hx h.symm
      have hrest'' : ((serverChecksGo (srv.name :: seen) rest).1.count
          (VError.duplicateServer x)) =
          if x ∈ seen then (rest.map ServerConfig.name).count x
          else (rest.map ServerConfig.name).count x - 1 := by
        rw [hrest]
        by_cases hseen : x ∈ seen
        · rw [if_pos (List.mem_cons_of_mem srv.name hseen), if_pos hseen]
        · rw [if_neg ?_, if_neg hseen]
          intro hmem
          rcases List.mem_cons.1 hmem with h1 | h1
          · exact hxs h1
          · exact hseen h1
      rw [hdup, hrest'', List.count_cons_of_ne hxs]
      split <;> omega

/-! ## Port findings (claim C7) -/

theorem serviceChecksGo_invalidPort_mem (services : List (String × ServiceConfig))
    (n : String) (p : Int) :
    ∀ (l : List (String × ServiceConfig)) (seen : List String),
      (VError.invalidPort n p ∈ (serviceChecksGo services seen l).1 ↔
        ∃ svc, (n, svc) ∈ l ∧ p ∈ svc.ports ∧ (p < 1 ∨ p > 65535)) := by
  intro l
  induction l with
  | nil => intro seen; simp [serviceChecksGo]
  | cons entry rest ih =>
    obtain ⟨name, svc₀⟩ := entry
    intro seen
    simp only [serviceChecksGo, List.mem_append]
    constructor
    · rintro ((((h1 | h1) | h1) | h1) | h1)
      · by_cases h : name ∈ seen <;> simp [h] at h1
      · by_cases h : trimEmpty svc₀.image <;> simp [h] at h1
      · rcases List.mem_filterMap.1 h1 with ⟨q, hq, hqe⟩
        by_cases h : q < 1 ∨ q > 65535 <;> simp [h] at hqe
        obtain ⟨hn, hp⟩ := hqe
        exact ⟨svc₀, by simp [hn], by rw [← hp]; exact hq, by rw [← hp]; exact h⟩
      · rcases List.mem_filterMap.1 h1 with ⟨d, _, hd⟩
        by_cases h : (lookupService services d).isNone <;> simp [h] at hd
      · obtain ⟨svc, hmem, hports, hrange⟩ := (ih (name :: seen)).1 h1
        exact ⟨svc, List.mem_cons_of_mem _ hmem, hports, hrange⟩
    · rintro ⟨svc, hmem, hports, hrange⟩
      rcases List.mem_cons.1 hmem with h1 | h1
      · obtain ⟨hn, hsvc⟩ := Prod.mk.injEq .. ▸ h1
        refine Or.inl (Or.inl (Or.inr ?_))
        refine List.mem_filterMap.2 ⟨p, ?_, ?_⟩
        · exact hsvc ▸ hports
        · rw [if_pos hrange, hn]
      · exact Or.inr ((ih (name :: seen)).2 ⟨svc, h1, hports, hrange⟩)

theorem serviceChecksGo_privPort_mem (services : List (String × ServiceConfig))
    (n : String) (p : Int) :
    ∀ (l : List (String × ServiceConfig)) (seen : List String),
      (VWarning.privilegedPort n p ∈ (serviceChecksGo services seen l).2 ↔
        ∃ svc, (n, svc) ∈ l ∧ p ∈ svc.ports ∧ p < 1024) := by
  intro l
  induction l with
  | nil => intro seen; simp [serviceChecksGo]
  | cons entry rest ih =>
    obtain ⟨name, svc₀⟩ := entry
    intro seen
    simp only [serviceChecksGo, List.mem_append]
    constructor
    · rintro (((h1 | h1) | h1) | h1)
      · by_cases h : svc₀.ports = [] <;> simp [h] at h1
      · rcases List.mem_filterMap.1 h1 with ⟨q, hq, hqe⟩
        by_cases h : q < 1024 <;> simp [h] at hqe
        obtain ⟨hn, hp⟩ := hqe
        exact ⟨svc₀, by simp [hn], by rw [← hp]; exact hq, by rw [← hp]; exact h⟩
      · rcases List.mem_filterMap.1 h1 with ⟨v, _, hv⟩
        by_cases h : ¬ strContains v ':' <;> simp [h] at hv
      · obtain ⟨svc, hmem, hports, hlt⟩ := (ih (name :: seen)).1 h1
        exact ⟨svc, List.mem_cons_of_mem _ hmem, hports, hlt⟩
    · rintro ⟨svc, hmem, hports, hlt⟩
      rcases List.mem_cons.1 hmem with h1 | h1
      · obtain ⟨hn, hsvc⟩ := Prod.mk.injEq .. ▸ h1
        refine Or.inl (Or.inl (Or.inr ?_))
        refine List.mem_filterMap.2 ⟨p, ?_, ?_⟩
        · exact hsvc ▸ hports
        · rw [if_pos hlt, hn]
      · exact Or.inr ((ih (name :: seen)).2 ⟨svc, h1, hports, hlt⟩)

/-! ## Claim theorems C4, C6, C7, C8 -/

/-- No phase check (project, server, service) ever pushes a `circularDep`
error: those come from the cycle pass alone. -/
theorem no_circ_in_phases (config : AirstackConfig) :
    ∀ e ∈ (projectChecks config.project).1 ++ (serverChecks (serversOf config)).1 ++
      (serviceChecks (entriesOf config)).1, ∀ n, e ≠ VError.circularDep n := by
  intro e he n
  rcases List.mem_append.1 he with h1 | h1
  · rcases List.mem_append.1 h1 with h2 | h2
    · rw [projectChecks_errors_shape config.project e h2]
      simp
    · rcases serverChecksGo_errors_shape (serversOf config) [] e h2 with ⟨m, hm⟩ | hm <;>
        simp [hm]
  · rcases serviceChecksGo_errors_shape (entriesOf config) (entriesOf config) [] e h1 with
      ⟨m, hm⟩ | ⟨m, hm⟩ | ⟨m, q, hm⟩ | ⟨m, d, hm⟩ <;> simp [hm]

/-- Claim C4: for a model whose `depends_on` names are all defined services,
`validateConfig` returns (no exception), and its errors contain at least one
circular-dependency entry iff the directed `depends_on` graph has a cycle of
length ≥ 1 (self-loops included).  In particular an acyclic graph — e.g. one
obtained by removing the back-edge that closed the only cycle — yields a
result with no cycle errors. -/
theorem validateConfig_cycle_error_iff_hasCycle :
    ∀ config : AirstackConfig, AllDepsDefined (entriesOf config) →
      ∃ r, validateConfig config = some r ∧
        ((∃ n, VError.circularDep n ∈ r.errors) ↔ HasCycle (entriesOf config)) := by
  intro config hAll
  unfold validateConfig
  cases hs : config.services with
  | none =>
    simp only
    refine ⟨_, rfl, ?_⟩
    have hentries : entriesOf config = [] := by unfold entriesOf; rw [hs]; rfl
    constructor
    · rintro ⟨n, hmem⟩
      exfalso
      simp only at hmem
      rcases List.mem_append.1 hmem with h1 | h1
      · have := projectChecks_errors_shape config.project _ h1
        simp at this
      · rcases serverChecksGo_errors_shape (serversOf config) [] _ h1 with ⟨m, hm⟩ | hm <;>
          simp at hm
    · rintro ⟨c, hcyc⟩
      exfalso
      obtain ⟨y, hcy, _⟩ := Relation.TransGen.head'_iff.1 hcyc
      unfold Edge at hcy
      rw [hentries] at hcy
      unfold svcDeps at hcy
      simp [lookupService] at hcy
  | some services =>
    simp only
    have hentries : entriesOf config = services := by unfold entriesOf; rw [hs]; rfl
    rw [hentries] at hAll
    obtain ⟨final, hrun, delta, hfin, hδc, hiff⟩ :=
      runCycleChecks_correct services hAll
        ((projectChecks config.project).1 ++ (serverChecks (serversOf config)).1 ++
          (serviceChecks services).1)
    rw [hrun]
    simp only
    refine ⟨_, rfl, ?_⟩
    rw [hentries]
    simp only
    constructor
    · rintro ⟨n, hmem⟩
      rw [hfin] at hmem
      rcases List.mem_append.1 hmem with h1 | h1
      · exact absurd rfl (by
          have := no_circ_in_phases config
          rw [hentries] at this
          exact this _ h1 n)
      · exact hiff.1 (by rintro rfl; exact absurd h1 (by simp))
    · intro hc
      have hne := hiff.2 hc
      obtain ⟨e, hemem⟩ := List.exists_mem_of_ne_nil delta hne
      obtain ⟨n, hn⟩ := hδc e hemem
      exact ⟨n, by rw [hfin]; exact List.mem_append.2 (Or.inr (hn ▸ hemem))⟩

/-- Claim C6: in any returned result, the number of duplicate-server-name
errors for a name `x` is exactly (number of occurrences of `x` in the server
list) − 1 (truncated at zero): the first occurrence is never flagged, each
repeat occurrence is flagged once, and two servers sharing a name yield
exactly one duplicate error. -/
theorem validateConfig_duplicateServer_count :
    ∀ (config : AirstackConfig) (r : ValidationResult) (x : String),
      validateConfig config = some r →
      r.errors.count (VError.duplicateServer x) =
        ((serversOf config).map ServerConfig.name).count x - 1 := by
  intro config r x h
  obtain ⟨cyc, hcycShape, herr, _, _⟩ := validateConfig_shape h
  rw [herr]
  rw [List.count_append, List.count_append, List.count_append]
  have h1 : (projectChecks config.project).1.count (VError.duplicateServer x) = 0 := by
    refine List.count_eq_zero.2 (fun hmem => ?_)
    have := projectChecks_errors_shape config.project _ hmem
    simp at this
  have h2 : (serviceChecks (entriesOf config)).1.count (VError.duplicateServer x) = 0 := by
    refine List.count_eq_zero.2 (fun hmem => ?_)
    rcases serviceChecksGo_errors_shape (entriesOf config) (entriesOf config) [] _ hmem with
      ⟨m, hm⟩ | ⟨m, hm⟩ | ⟨m, q, hm⟩ | ⟨m, d, hm⟩ <;> simp at hm
  have h3 : cyc.count (VError.duplicateServer x) = 0 := by
    refine List.count_eq_zero.2 (fun hmem => ?_)
    obtain ⟨m, hm⟩ := hcycShape _ hmem
    simp at hm
  have h4 := serverChecksGo_dup_count x (serversOf config) []
  rw [if_neg (by simp)] at h4
  unfold serverChecks
  rw [h1, h2, h3, h4]
  omega

/-- Claim C7: in any returned result, a port `p` listed by a service entry
`(n, svc)` has an out-of-range error exactly when `p` is outside
`[1, 65535]`, and a privileged-port warning exactly when `p < 1024`; a
privileged in-range port gets the warning but never an out-of-range error. -/
theorem validateConfig_port_checks :
    ∀ (config : AirstackConfig) (r : ValidationResult) (n : String)
      (svc : ServiceConfig) (p : Int),
      validateConfig config = some r →
      (n, svc) ∈ entriesOf config → p ∈ svc.ports →
      (VError.invalidPort n p ∈ r.errors ↔ ¬ (1 ≤ p ∧ p ≤ 65535)) ∧
      (VWarning.privilegedPort n p ∈ r.warnings ↔ p < 1024) := by
  intro config r n svc p h hmem hports
  obtain ⟨cyc, hcycShape, herr, hwarn, _⟩ := validateConfig_shape h
  constructor
  · rw [herr]
    constructor
    · intro hin
      rcases List.mem_append.1 hin with h1 | h1
      swap
      · obtain ⟨m, hm⟩ := hcycShape _ h1; simp at hm
      rcases List.mem_append.1 h1 with h2 | h2
      swap
      · obtain ⟨svc', _, _, hrange⟩ :=
          (serviceChecksGo_invalidPort_mem (entriesOf config) n p (entriesOf config) []).1 h2
        omega
      rcases List.mem_append.1 h2 with h3 | h3
      · have := projectChecks_errors_shape config.project _ h3; simp at this
      · rcases serverChecksGo_errors_shape (serversOf config) [] _ h3 with ⟨m, hm⟩ | hm <;>
          simp at hm
    · intro hrange
      refine List.mem_append.2 (Or.inl (List.mem_append.2 (Or.inr ?_)))
      exact (serviceChecksGo_invalidPort_mem (entriesOf config) n p (entriesOf config) []).2
        ⟨svc, hmem, hports, by omega⟩
  · rw [hwarn]
    constructor
    · intro hin
      rcases List.mem_append.1 hin with h1 | h1
      swap
      · obtain ⟨svc', _, _, hlt⟩ :=
          (serviceChecksGo_privPort_mem (entriesOf config) n p (entriesOf config) []).1 h1
        exact hlt
      rcases List.mem_append.1 h1 with h2 | h2
      · have := projectChecks_warnings_shape config.project _ h2; simp at this
      · rcases serverChecksGo_warnings_shape (serversOf config) [] _ h2 with
          ⟨pr, m, hm⟩ | ⟨m, hm⟩ <;> simp at hm
    · intro hlt
      refine List.mem_append.2 (Or.inr ?_)
      exact (serviceChecksGo_privPort_mem (entriesOf config) n p (entriesOf config) []).2
        ⟨svc, hmem, hports, hlt⟩

/-- Claim C8: in any returned result, `valid` is true exactly when the errors
list is empty; the warnings list plays no role in `valid`. -/
theorem validateConfig_valid_iff_no_errors :
    ∀ (config : AirstackConfig) (r : ValidationResult),
      validateConfig config = some r → (r.valid = true ↔ r.errors = []) := by
  intro config r h
  obtain ⟨_, _, _, _, hvalid⟩ := validateConfig_shape h
  rw [hvalid]
  constructor
  · intro hb
    have hlen : r.errors.length = 0 := by simpa using hb
    exact List.eq_nil_of_length_eq_zero hlen
  · intro hnil
    rw [hnil]
    simp

/-! ## Claim theorem C5 and the witnesses -/

/-- Claim C5: (1) when a search started at a fresh `s` returns `true`
(a back-edge was found below it), the frames of the search form a dependency
path `p` from `s`, and one `circularDep` error is pushed for *every* service
on that recursion path (innermost first) — not only the frame that
discovered the back-edge; the path's services all stay in `visiting` and
none is moved to the `visited` (done) set.  (2) Consequently a later search
from a fresh `s` whose dependency chain merely reaches some `t` stranded in
`visiting` also returns `true` and reports `circularDep s`, even though `s`
need lie on no cycle. -/
theorem checkCircularDeps_path_error_per_frame :
    (∀ (services : List (String × ServiceConfig)) (fuel : Nat) (s : String)
        (st st' : DfsState),
      checkCircularDeps services fuel s st = some (true, st') →
      s ∉ st.visiting → DisjSets st → DoneClosed services st →
      ∃ p t, p.head? = some s ∧ List.Chain' (Edge services) p ∧
        (∃ x, p.getLast? = some x ∧ Edge services x t) ∧
        (t ∈ p ∨ t ∈ st.visiting) ∧
        st'.errors = st.errors ++ p.reverse.map VError.circularDep ∧
        st'.visiting = p.reverse ++ st.visiting ∧
        (∀ a ∈ p, a ∈ st'.visiting ∧ a ∉ st'.visited)) ∧
    (∀ (services : List (String × ServiceConfig)) (fuel : Nat) (s : String)
        (st : DfsState) (b : Bool) (st' : DfsState),
      checkCircularDeps services fuel s st = some (b, st') →
      DisjSets st → DoneClosed services st →
      ∀ t, t ∈ st.visiting → Relation.ReflTransGen (Edge services) s t →
      s ∉ st.visiting →
      b = true ∧ VError.circularDep s ∈ st'.errors) := by
  constructor
  · intro services fuel s st st' h hv hdisj hdc
    obtain ⟨p, t, hhead, hchain, hend, htmem, herr, hvis⟩ :=
      checkCircularDeps_true_path services fuel s st st' h hv
    have hinv := checkCircularDeps_inv services fuel s st st' true h hdisj hdc
    refine ⟨p, t, hhead, hchain, hend, htmem, herr, hvis, ?_⟩
    intro a ha
    have haV : a ∈ st'.visiting := by
      rw [hvis]
      exact List.mem_append.2 (Or.inl (List.mem_reverse.2 ha))
    exact ⟨haV, fun haD => hinv.1 a haV haD⟩
  · intro services fuel s st b st' h hdisj hdc t ht hreach hv
    exact checkCircularDeps_reach services fuel s st b st' h hdisj hdc t ht hreach hv

/-- Witness for C5, at a self-loop `a → a` from the initial state (part 1)
and at `e → x` with `x` stranded in `visiting` (part 2). -/
theorem checkCircularDeps_path_error_per_frame_witness :
    (checkCircularDeps svcSelf 2 "a" dfsStEmpty = some (true, dfsStAfterSelf) ∧
      ("a" ∉ dfsStEmpty.visiting) ∧ DisjSets dfsStEmpty ∧ DoneClosed svcSelf dfsStEmpty ∧
      (∃ p t, p.head? = some "a" ∧ List.Chain' (Edge svcSelf) p ∧
        (∃ x, p.getLast? = some x ∧ Edge svcSelf x t) ∧
        (t ∈ p ∨ t ∈ dfsStEmpty.visiting) ∧
        dfsStAfterSelf.errors = dfsStEmpty.errors ++ p.reverse.map VError.circularDep ∧
        dfsStAfterSelf.visiting = p.reverse ++ dfsStEmpty.visiting ∧
        (∀ a ∈ p, a ∈ dfsStAfterSelf.visiting ∧ a ∉ dfsStAfterSelf.visited))) ∧
    (checkCircularDeps svcLeak 2 "e" dfsStStale = some (true, dfsStAfterLeak) ∧
      "x" ∈ dfsStStale.visiting ∧
      Relation.ReflTransGen (Edge svcLeak) "e" "x" ∧
      (true = true ∧ VError.circularDep "e" ∈ dfsStAfterLeak.errors)) := by
  have hdisj1 : DisjSets dfsStEmpty := fun a h1 _ => absurd h1 (by simp [dfsStEmpty])
  have hdc1 : DoneClosed svcSelf dfsStEmpty := fun a h1 => absurd h1 (by simp [dfsStEmpty])
  have hdisj2 : DisjSets dfsStStale := fun a _ h2 => absurd h2 (by simp [dfsStStale])
  have hdc2 : DoneClosed svcLeak dfsStStale := fun a h1 => absurd h1 (by simp [dfsStStale])
  have hreach : Relation.ReflTransGen (Edge svcLeak) "e" "x" :=
    Relation.ReflTransGen.single (by decide)
  refine ⟨⟨by decide, by decide, hdisj1, hdc1, ?_⟩, by decide, by decide, hreach, ?_⟩
  · exact checkCircularDeps_path_error_per_frame.1 svcSelf 2 "a" dfsStEmpty
      _ (by decide) (by decide) hdisj1 hdc1
  · exact checkCircularDeps_path_error_per_frame.2 svcLeak 2 "e" dfsStStale
      true _ (by decide) hdisj2 hdc2 "x" (by decide) hreach (by decide)

/-- Witness for C4 at the two-service cycle `a → b → a`. -/
theorem validateConfig_cycle_error_iff_hasCycle_witness :
    AllDepsDefined (entriesOf cfgCyclePair) ∧
    (∃ r, validateConfig cfgCyclePair = some r ∧
      ((∃ n, VError.circularDep n ∈ r.errors) ↔ HasCycle (entriesOf cfgCyclePair))) :=
  ⟨by decide, validateConfig_cycle_error_iff_hasCycle cfgCyclePair (by decide)⟩

/-- Witness for C6 at the spec scenario of two servers both named `edge`:
exactly one duplicate-name error. -/
theorem validateConfig_duplicateServer_count_witness :
    validateConfig cfgDupServers = some resDupServers ∧
    resDupServers.errors.count (VError.duplicateServer "edge") =
      ((serversOf cfgDupServers).map ServerConfig.name).count "edge" - 1 :=
  ⟨by decide,
    validateConfig_duplicateServer_count cfgDupServers resDupServers "edge" (by decide)⟩

/-- Witness for C7 at a service listing ports 80 (privileged, in range) and
99999 (out of range). -/
theorem validateConfig_port_checks_witness :
    validateConfig cfgPorts = some resPorts ∧
    ("web", svcWeb) ∈ entriesOf cfgPorts ∧ (80 : Int) ∈ svcWeb.ports ∧
    ((VError.invalidPort "web" 80 ∈ resPorts.errors ↔
      ¬ ((1 : Int) ≤ 80 ∧ (80 : Int) ≤ 65535)) ∧
     (VWarning.privilegedPort "web" 80 ∈ resPorts.warnings ↔ (80 : Int) < 1024)) :=
  ⟨by decide, by decide, by decide,
    validateConfig_port_checks cfgPorts resPorts "web" svcWeb 80
      (by decide) (by decide) (by decide)⟩

/-- Witness for C8 at a clean config: `valid = true` and no errors. -/
theorem validateConfig_valid_iff_no_errors_witness :
    validateConfig cfgCleanW = some resCleanW ∧
    (resCleanW.valid = true ↔ resCleanW.errors = []) :=
  ⟨by decide, validateConfig_valid_iff_no_errors cfgCleanW resCleanW (by decide)⟩

/-! ## Claim C9: load aggregates every schema violation in one error -/

/-- Claim C9: when the document violates the schema (zod collects at least one
issue), `AirstackConfig.load` fails with a *single* error whose message
lists, for *every* issue collected in the one parsing pass (not just the
first), its dotted field path and its human-readable reason. -/
theorem airstackConfigLoad_aggregates_issues :
    ∀ doc : JValue, schemaIssues doc ≠ [] →
      airstackConfigLoad doc =
        Except.error ("Configuration validation failed:\n" ++
          String.intercalate "\n" ((schemaIssues doc).map formatZodIssue)) := by
  intro doc hne
  unfold schemaIssues at hne ⊢
  unfold airstackConfigLoad
  cases hp : parseAirstackConfig doc with
  | mk issues copt =>
    rw [hp] at hne
    simp only at hne
    cases issues with
    | nil => exact absurd rfl hne
    | cons i rest => cases copt <;> rfl

/-- Witness for C9 at a document with two violations in different sections:
the single thrown message carries both dotted paths and reasons. -/
theorem airstackConfigLoad_aggregates_issues_witness :
    schemaIssues docTwoViolations ≠ [] ∧
    airstackConfigLoad docTwoViolations =
      Except.error ("Configuration validation failed:\n" ++
        String.intercalate "\n" ((schemaIssues docTwoViolations).map formatZodIssue)) ∧
    (schemaIssues docTwoViolations).map formatZodIssue =
      ["  project.name: String must contain at least 1 character(s)",
       "  services.api.ports.0: Number must be greater than 0"] :=
  ⟨by decide, airstackConfigLoad_aggregates_issues docTwoViolations (by decide),
    by decide⟩

/-! ## Claim C10: validate() short-circuits at the first violation -/

theorem methodValidateServers_eq_firstDup :
    ∀ (servers : List ServerConfig) (seen : List String),
      methodValidateServers seen servers =
        match firstDupServerNameGo seen servers with
        | some n => Except.error (dupServerMsg n)
        | none => Except.ok () := by
  intro servers
  induction servers with
  | nil => intro seen; rfl
  | cons server rest ih =>
    intro seen
    simp only [methodValidateServers, firstDupServerNameGo]
    by_cases h : server.name ∈ seen
    · rw [if_pos h, if_pos h]
    · rw [if_neg h, if_neg h]
      exact ih (server.name :: seen)

theorem methodValidateDeps_eq_find (services : List (String × ServiceConfig))
    (name : String) :
    ∀ deps : List String,
      methodValidateDeps services name deps =
        match deps.find? (fun dep => (lookupService services dep).isNone) with
        | some dep => Except.error (missingDepMsg name dep)
        | none => Except.ok () := by
  intro deps
  induction deps with
  | nil => rfl
  | cons dep rest ih =>
    simp only [methodValidateDeps, List.find?]
    by_cases h : (lookupService services dep).isNone
    · rw [if_pos h, h]
    · rw [if_neg h]
      rw [Bool.of_not_eq_true h]
      exact ih

theorem methodValidateServices_eq_firstUndefined
    (services : List (String × ServiceConfig)) :
    ∀ (l : List (String × ServiceConfig)) (seen : List String),
      (∀ p ∈ l, p.1 ∉ seen) → (l.map Prod.fst).Nodup →
      methodValidateServices services seen l =
        match firstUndefinedDepRef services l with
        | some (s, d) => Except.error (missingDepMsg s d)
        | none => Except.ok () := by
  intro l
  induction l with
  | nil => intro seen _ _; rfl
  | cons entry rest ih =>
    obtain ⟨serviceName, service⟩ := entry
    intro seen hseen hnodup
    rw [List.map_cons] at hnodup
    obtain ⟨hhead, htail⟩ := List.nodup_cons.1 hnodup
    simp only [methodValidateServices, firstUndefinedDepRef]
    rw [if_neg (hseen (serviceName, service) (by simp))]
    rw [methodValidateDeps_eq_find services serviceName]
    cases hfind : (service.depends_on.getD []).find?
        (fun dep => (lookupService services dep).isNone) with
    | some dep => rfl
    | none =>
      simp only
      refine ih (serviceName :: seen) ?_ ?_
      · intro p hp hmem
        rcases List.mem_cons.1 hmem with h1 | h1
        · have hm : p.1 ∈ rest.map Prod.fst := List.mem_map_of_mem Prod.fst hp
          rw [h1] at hm
          exact hhead hm
        · exact hseen p (List.mem_cons_of_mem _ hp) h1
      · exact htail

/-- Claim C10: for any model whose services record has (as a JS record always
does) pairwise-distinct keys, `AirstackConfig.validate()` throws exactly at
the first violation it encounters in traversal order — the first repeated
server name, else the first `depends_on` entry naming an undefined service —
and reports nothing else, so later violations in the same model go
unreported. -/
theorem configValidateMethod_first_violation :
    ∀ config : AirstackConfig, ((entriesOf config).map Prod.fst).Nodup →
      configValidateMethod config =
        match firstDupServerName (serversOf config) with
        | some n => Except.error (dupServerMsg n)
        | none =>
            match firstUndefinedDepRef (entriesOf config) (entriesOf config) with
            | some (s, d) => Except.error (missingDepMsg s d)
            | none => Except.ok () := by
  intro config hnodup
  unfold configValidateMethod firstDupServerName
  rw [methodValidateServers_eq_firstDup (serversOf config) []]
  cases hdup : firstDupServerNameGo [] (serversOf config) with
  | some n => rfl
  | none =>
    simp only
    exact methodValidateServices_eq_firstUndefined (entriesOf config)
      (entriesOf config) [] (by simp) hnodup

/-- Witness for C10 at a model carrying both a duplicate server name and an
undefined dependency: only the duplicate-server error (the first violation
encountered) is thrown. -/
theorem configValidateMethod_first_violation_witness :
    ((entriesOf cfgShortCircuit).map Prod.fst).Nodup ∧
    (configValidateMethod cfgShortCircuit =
      match firstDupServerName (serversOf cfgShortCircuit) with
      | some n => Except.error (dupServerMsg n)
      | none =>
          match firstUndefinedDepRef (entriesOf cfgShortCircuit)
              (entriesOf cfgShortCircuit) with
          | some (s, d) => Except.error (missingDepMsg s d)
          | none => Except.ok ()) ∧
    configValidateMethod cfgShortCircuit = Except.error (dupServerMsg "edge") ∧
    firstUndefinedDepRef (entriesOf cfgShortCircuit) (entriesOf cfgShortCircuit) =
      some ("api", "db") :=
  ⟨by decide, configValidateMethod_first_violation cfgShortCircuit (by decide),
    by rfl, by decide⟩

end Airstack
